import Mathlib

/-!
Shallow embedding of the `bake` target-configuration resolution engine
(config merging, group expansion, inheritance resolution, override parsing
and application, normalization) together with theorems checking the
natural-language specification against it.

Strings are modelled as lists of characters (`Str`).  Go's byte-oriented
string operations coincide with character operations on the ASCII inputs the
engine manipulates; UTF-8 decoding is collapsed to taking one character.
-/

namespace Bake

abbrev Str := List Char

/-- Association-list lookup, mirroring a Go `map[string]T` read. -/
def lookupA {α : Type} : List (Str × α) → Str → Option α
  | [], _ => none
  | (k, v) :: rest, key => if k = key then some v else lookupA rest key

/-- Association-list update, mirroring a Go `map[string]T` write
(`m[k] = v`): replaces the binding if present, otherwise appends it. -/
def setA {α : Type} : List (Str × α) → Str → α → List (Str × α)
  | [], key, v => [(key, v)]
  | (k, w) :: rest, key, v =>
    if k = key then (k, v) :: rest else (k, w) :: setA rest key v

/-- Inner loop of Go `strings.SplitN(s, sep, n)` for a one-character
separator and `n ≥ 1`: split around the first `n-1` occurrences of `sep`. -/
def splitGo (sep : Char) : List Char → Nat → List (List Char)
  | s, 0 => [s]
  | s, n + 1 =>
    let pre := s.takeWhile (· ≠ sep)
    match s.dropWhile (· ≠ sep) with
    | [] => [s]
    | _ :: tail => pre :: splitGo sep tail n

/-- Go `strings.SplitN(s, sep, n)` for a one-character separator:
`n = 0` yields no substrings, otherwise at most `n` pieces. -/
def splitNC (s : List Char) (sep : Char) (n : Nat) : List (List Char) :=
  match n with
  | 0 => []
  | n + 1 => splitGo sep s n

/-- Go `strconv.ParseBool`: accepts exactly the twelve literal spellings. -/
def parseBool (s : Str) : Except Unit Bool :=
  if s = "1".toList ∨ s = "t".toList ∨ s = "T".toList ∨ s = "TRUE".toList ∨
     s = "true".toList ∨ s = "True".toList then .ok true
  else if s = "0".toList ∨ s = "f".toList ∨ s = "F".toList ∨ s = "FALSE".toList ∨
     s = "false".toList ∨ s = "False".toList then .ok false
  else .error ()

/-- The `Target` record (bake.go).  Pointer-valued Go fields become
`Option`; nilable Go slices become `Option (List Str)` since `merge`
branches on slice nil-ness; Go maps become association lists (a nil map and
an empty map are indistinguishable to this code); `Pull`/`NoCache` are plain
`Bool` exactly as in the source. -/
structure Target where
  Inherits   : List Str := []
  Context    : Option Str := none
  Dockerfile : Option Str := none
  Args       : List (Str × Str) := []
  Labels     : List (Str × Str) := []
  Tags       : Option (List Str) := none
  CacheFrom  : Option (List Str) := none
  CacheTo    : Option (List Str) := none
  Target     : Option Str := none
  Secrets    : Option (List Str) := none
  SSH        : Option (List Str) := none
  Platforms  : Option (List Str) := none
  Outputs    : Option (List Str) := none
  Pull       : Bool := false
  NoCache    : Bool := false
deriving Repr, DecidableEq

/-- `defaultTarget()` returns the zero `Target`. -/
def defaultTarget : Target := {}

/-- The zero `Target`, as produced by `var tt Target` or a map miss. -/
def emptyTarget : Target := {}

/-- Go `append(a, b...)` on nilable slices: appending nothing to a nil
slice keeps it nil; otherwise the result holds both element lists. -/
def goAppend (a b : Option (List Str)) : Option (List Str) :=
  match b with
  | none => a
  | some xs =>
    match a, xs with
    | none, [] => none
    | a, xs => some (a.getD [] ++ xs)

/-- Key-wise union of two Go maps: every binding of `m2` is written into
`m1`, later writes replacing earlier bindings of the same key. -/
def unionA (m1 m2 : List (Str × Str)) : List (Str × Str) :=
  m2.foldl (fun acc kv => setA acc kv.1 kv.2) m1

/-- `merge(t1, t2)` (bake.go lines 410-455): field-level merge with `t2`
taking precedence.  Scalars replace when set; `Args`/`Labels` union
key-wise; `Tags`/`Platforms`/`CacheTo`/`Outputs` replace wholesale;
`Secrets`/`SSH`/`CacheFrom` append; `Inherits` concatenates; `Pull` and
`NoCache` of `t2` are never consulted (the source has no case for them). -/
def merge (t1 t2 : Target) : Target where
  Inherits   := t1.Inherits ++ t2.Inherits
  Context    := if t2.Context.isSome then t2.Context else t1.Context
  Dockerfile := if t2.Dockerfile.isSome then t2.Dockerfile else t1.Dockerfile
  Args       := unionA t1.Args t2.Args
  Labels     := unionA t1.Labels t2.Labels
  Tags       := if t2.Tags.isSome then t2.Tags else t1.Tags
  CacheFrom  := goAppend t1.CacheFrom t2.CacheFrom
  CacheTo    := if t2.CacheTo.isSome then t2.CacheTo else t1.CacheTo
  Target     := if t2.Target.isSome then t2.Target else t1.Target
  Secrets    := goAppend t1.Secrets t2.Secrets
  SSH        := goAppend t1.SSH t2.SSH
  Platforms  := if t2.Platforms.isSome then t2.Platforms else t1.Platforms
  Outputs    := if t2.Outputs.isSome then t2.Outputs else t1.Outputs
  Pull       := t1.Pull
  NoCache    := t1.NoCache

/-- Value-level `removeDupes`: keep each string the first time it is seen
(the source compacts in place and returns the kept prefix). -/
def removeDupesLoop : List Str → List Str → List Str
  | [], _ => []
  | v :: rest, seen =>
    if v ∈ seen then removeDupesLoop rest seen
    else v :: removeDupesLoop rest (v :: seen)

/-- `removeDupes(s)` (bake.go lines 457-469), as a pure function on the
slice's values. -/
def removeDupes (s : List Str) : List Str := removeDupesLoop s []

/-- `(*Target).normalize()`: deduplicate the seven list-valued fields. -/
def normalize (t : Target) : Target :=
  { t with
    Tags      := t.Tags.map removeDupes
    Secrets   := t.Secrets.map removeDupes
    SSH       := t.SSH.map removeDupes
    Platforms := t.Platforms.map removeDupes
    CacheFrom := t.CacheFrom.map removeDupes
    CacheTo   := t.CacheTo.map removeDupes
    Outputs   := t.Outputs.map removeDupes }

/-- A `Group` is its ordered member-name list. -/
structure Group where
  Targets : List Str := []
deriving Repr, DecidableEq

/-- `Config`: group and target maps, modelled as association lists (a Go
map has unique keys; theorems that iterate over the key set carry a
`Nodup` hypothesis where it matters). -/
structure Config where
  Group  : List (Str × Group) := []
  Target : List (Str × Target) := []
deriving Repr, DecidableEq

/-- Errors produced by the engine, carrying the data interpolated into the
corresponding `errors.Errorf` message. -/
inductive Err where
  | targetNotFound (name : Str)
  | noMatch (pattern : Str)
  | badPattern (pattern : Str)
  | invalidOverrideKey (key : Str)
  | invalidOverrideValue (v : Str)
  | argsRequiresName (key : Str)
  | labelsRequiresName (key : Str)
  | invalidBoolValue (value : Str) (key : Str)
  | unknownKey (key : Str)
  | outOfFuel
deriving Repr, DecidableEq

/-! ## Go `path.Match` (the glob matcher used by `expandTargets`) -/

/-- `getEsc(chunk)`: read one possibly-escaped character class member.
Errors on an empty chunk, a leading `-` or `]`, a trailing backslash, or a
member not followed by further chunk characters. -/
def getEsc : List Char → Except Unit (Char × List Char)
  | [] => .error ()
  | '-' :: _ => .error ()
  | ']' :: _ => .error ()
  | '\\' :: [] => .error ()
  | '\\' :: r :: nchunk => if nchunk = [] then .error () else .ok (r, nchunk)
  | c :: rest => if rest = [] then .error () else .ok (c, rest)

theorem getEsc_length_lt (chunk : List Char) (r : Char) (rest : List Char)
    (h : getEsc chunk = .ok (r, rest)) : rest.length < chunk.length := by
  unfold getEsc at h
  split at h <;> first
    | simp at h
    | (split at h <;> simp_all <;> omega)

/-- The range-parsing loop inside `matchChunk`'s `[` case: consume class
members until the closing `]` (`len(chunk) > 0 && chunk[0] == ']' &&
nrange > 0`), recording whether any range contains `r`.  Returns the rest
of the chunk and the match flag. -/
def parseRanges (r : Char) : List Char → Bool → Nat → Except Unit (List Char × Bool)
  | chunk, acc, nrange =>
    if chunk.head? = some ']' ∧ nrange > 0 then .ok (chunk.tail, acc)
    else
      match getEsc chunk with
      | .error e => .error e
      | .ok (lo, chunk1) =>
        if chunk1.head? = some '-' then
          match getEsc chunk1.tail with
          | .error e => .error e
          | .ok (hi, chunk3) =>
            -- the length guard holds whenever this point is reached
            -- (`getEsc_length_lt`); it only justifies termination
            if _h : chunk3.length < chunk.length then
              parseRanges r chunk3 (acc || (lo ≤ r ∧ r ≤ hi : Bool)) (nrange + 1)
            else .error ()
        else
          if _h : chunk1.length < chunk.length then
            parseRanges r chunk1 (acc || (lo ≤ r ∧ r ≤ lo : Bool)) (nrange + 1)
          else .error ()
termination_by chunk _ _ => chunk.length

theorem parseRanges_length_le (r : Char) (chunk : List Char) (acc : Bool) (n : Nat)
    (rest : List Char) (b : Bool) (h : parseRanges r chunk acc n = .ok (rest, b)) :
    rest.length ≤ chunk.length := by
  induction chunk, acc, n using parseRanges.induct r with
  | case1 chunk acc n hn =>
    rw [parseRanges] at h
    simp only [if_pos hn, Except.ok.injEq, Prod.mk.injEq] at h
    obtain ⟨h1, _⟩ := h
    subst h1
    rw [List.length_tail]
    omega
  | case2 chunk acc n hn e hG =>
    rw [parseRanges] at h
    rw [if_neg hn, hG] at h
    simp at h
  | case3 chunk acc n hn lo chunk1 hG hD e hG2 =>
    rw [parseRanges] at h
    rw [if_neg hn, hG] at h
    simp only [if_pos hD] at h
    rw [hG2] at h
    simp at h
  | case4 chunk acc n hn lo chunk1 hG hD hi chunk3 hG2 hlt ih =>
    rw [parseRanges] at h
    rw [if_neg hn, hG] at h
    simp only [if_pos hD] at h
    rw [hG2] at h
    simp only [dif_pos hlt] at h
    have := ih h
    omega
  | case5 chunk acc n hn lo chunk1 hG hD hi chunk3 hG2 hlt =>
    rw [parseRanges] at h
    rw [if_neg hn, hG] at h
    simp only [if_pos hD] at h
    rw [hG2] at h
    simp only [dif_neg hlt] at h
    simp at h
  | case6 chunk acc n hn lo chunk1 hG hD hlt ih =>
    rw [parseRanges] at h
    rw [if_neg hn, hG] at h
    simp only [if_neg hD] at h
    simp only [dif_pos hlt] at h
    have := ih h
    omega
  | case7 chunk acc n hn lo chunk1 hG hD hlt =>
    rw [parseRanges] at h
    rw [if_neg hn, hG] at h
    simp only [if_neg hD] at h
    simp only [dif_neg hlt] at h
    simp at h

/-- Consume the leading `*`s of a pattern; `true` iff at least one. -/
def dropStars : List Char → Bool × List Char
  | '*' :: rest => (true, (dropStars rest).2)
  | p => (false, p)

/-- The `Scan` loop of `scanChunk`: cut the pattern at the first `*` that
is not inside a character class, keeping escaped pairs together. -/
def scanBody : List Char → Bool → List Char × List Char
  | [], _ => ([], [])
  | c :: rest, inrange =>
    if c = '\\' then
      match rest with
      | [] => ([c], [])
      | d :: rest2 =>
        let p := scanBody rest2 inrange
        (c :: d :: p.1, p.2)
    else if c = '[' then
      let p := scanBody rest true
      (c :: p.1, p.2)
    else if c = ']' then
      let p := scanBody rest false
      (c :: p.1, p.2)
    else if c = '*' then
      if inrange then
        let p := scanBody rest inrange
        (c :: p.1, p.2)
      else ([], c :: rest)
    else
      let p := scanBody rest inrange
      (c :: p.1, p.2)

/-- `scanChunk(pattern)`: `(star, chunk, rest)`. -/
def scanChunk (p : List Char) : Bool × List Char × List Char :=
  let s := dropStars p
  let b := scanBody s.2 false
  (s.1, b.1, b.2)

theorem scanBody_append (p : List Char) (inr : Bool) :
    (scanBody p inr).1 ++ (scanBody p inr).2 = p := by
  induction p, inr using scanBody.induct with
  | case1 => simp [scanBody]
  | case2 => simp [scanBody]
  | case3 inr d rest2 ih => simp [scanBody, ih]
  | case4 rest inr h ih => rw [scanBody.eq_def]; simp [ih]
  | case5 rest inr h1 h2 ih => rw [scanBody.eq_def]; simp [ih]
  | case6 rest h1 h2 h3 ih => rw [scanBody.eq_def]; simp [ih]
  | case7 rest inr h h1 h2 h3 =>
    have hf : inr = false := by revert h; cases inr <;> simp
    subst hf
    rw [scanBody.eq_def]
    simp
  | case8 c rest inr h1 h2 h3 h4 ih =>
    rw [scanBody.eq_def]
    simp [h1, h2, h3, h4, ih]

theorem scanBody_chunk_ne_nil (c : Char) (rest : List Char) (inr : Bool)
    (h : c ≠ '*' ∨ inr = true) : (scanBody (c :: rest) inr).1 ≠ [] := by
  rw [scanBody.eq_def]
  by_cases h1 : c = '\\'
  · subst h1; cases rest <;> simp
  · by_cases h2 : c = '['
    · subst h2; simp
    · by_cases h3 : c = ']'
      · subst h3; simp
      · by_cases h4 : c = '*'
        · subst h4
          rcases h with h | h
          · exact absurd rfl h
          · subst h; simp [h1, h2, h3]
        · simp [h1, h2, h3, h4]

theorem dropStars_spec (p : List Char) :
    ((dropStars p).2.length ≤ p.length) ∧
    ((dropStars p).1 = true → (dropStars p).2.length < p.length) ∧
    ((dropStars p).1 = false → (dropStars p).2 = p) ∧
    ((dropStars p).2.head? ≠ some '*') := by
  induction p with
  | nil => simp [dropStars]
  | cons c rest ih =>
    by_cases hc : c = '*'
    · subst hc
      refine ⟨?_, ?_, ?_, ih.2.2.2⟩ <;> simp [dropStars] <;> omega
    · constructor
      · simp [dropStars, hc]
      · refine ⟨?_, ?_, ?_⟩ <;> simp [dropStars, hc]

/-- The rest returned by `scanChunk` is strictly shorter than a nonempty
pattern, which makes the `Pattern:` loop of `Match` terminate. -/
theorem scanChunk_rest_lt (p : List Char) (hp : p ≠ []) :
    (scanChunk p).2.2.length < p.length := by
  obtain ⟨hle, hlt, heq, hhead⟩ := dropStars_spec p
  have hgoal : (scanChunk p).2.2 = (scanBody (dropStars p).2 false).2 := rfl
  rw [hgoal]
  cases hstar : (dropStars p).1 with
  | true =>
    have h1 := hlt hstar
    have h2 : (scanBody (dropStars p).2 false).2.length ≤ (dropStars p).2.length := by
      conv_rhs => rw [← scanBody_append (dropStars p).2 false]
      simp
    omega
  | false =>
    have h2 := heq hstar
    cases hd : (dropStars p).2 with
    | nil => rw [h2] at hd; exact absurd hd hp
    | cons c rest =>
      have hc : c ≠ '*' := by
        intro hcc
        rw [hd, hcc] at hhead
        simp at hhead
      have hne := scanBody_chunk_ne_nil c rest false (Or.inl hc)
      have happ := scanBody_append (c :: rest) false
      have hlt2 : (scanBody (c :: rest) false).2.length < (c :: rest).length := by
        have hl := congrArg List.length happ
        simp only [List.length_append, List.length_cons] at hl
        cases hch : (scanBody (c :: rest) false).1 with
        | nil => exact absurd hch hne
        | cons a b =>
          rw [hch] at hl
          simp only [List.length_cons] at hl
          simp only [List.length_cons]
          omega
      have hpc : p = c :: rest := by rw [← h2, hd]
      rw [hpc]
      exact hlt2

/-- `matchChunk(chunk, s)`: match the non-star chunk against a prefix of
`s`; `ok (some rest)` returns the unmatched remainder of `s`, `ok none` is
a non-match, `error` a malformed pattern. -/
def matchChunk : List Char → List Char → Except Unit (Option (List Char))
  | [], s => .ok (some s)
  | _ :: _, [] => .ok none
  | c :: chunk, sc :: stail =>
    if c = '[' then
      match parseRanges sc (if chunk.head? = some '^' then chunk.tail else chunk) false 0 with
      | .error e => .error e
      | .ok (chunkRest, matched) =>
        if matched = (chunk.head? = some '^' : Bool) then .ok none
        else matchChunk chunkRest stail
    else if c = '?' then
      if sc = '/' then .ok none else matchChunk chunk stail
    else if c = '\\' then
      match chunk with
      | [] => .error ()
      | d :: chunk2 =>
        if d = sc then matchChunk chunk2 stail else .ok none
    else
      if c = sc then matchChunk chunk stail else .ok none

/-- The `star` retry loop of `Match`: try `matchChunk` at every later
start position of the name (stopping at a `/`).  `ok (some t)` resumes the
outer loop with the remainder `t`; `ok none` means the whole match fails. -/
def starLoop (chunk rest : List Char) : List Char → Except Unit (Option (List Char))
  | [] => .ok none
  | c :: nameTail =>
    if c = '/' then .ok none
    else
      match matchChunk chunk nameTail with
      | .error e => .error e
      | .ok none => starLoop chunk rest nameTail
      | .ok (some t) =>
        if rest = [] ∧ t ≠ [] then starLoop chunk rest nameTail
        else .ok (some t)

/-- The `Pattern:` loop of Go `path.Match(pattern, name)`. -/
def matchLoop (pattern name : List Char) : Except Unit Bool :=
  if hp : pattern = [] then .ok (name = [] : Bool)
  else
    let sc := scanChunk pattern
    let star := sc.1
    let chunk := sc.2.1
    let rest := sc.2.2
    if star ∧ chunk = [] then .ok (!(name.contains '/'))
    else
      match matchChunk chunk name with
      | .error e => .error e
      | .ok (some t) =>
        if t = [] ∨ rest ≠ [] then matchLoop rest t
        else if star then
          match starLoop chunk rest name with
          | .error e => .error e
          | .ok none => .ok false
          | .ok (some t2) => matchLoop rest t2
        else .ok false
      | .ok none =>
        if star then
          match starLoop chunk rest name with
          | .error e => .error e
          | .ok none => .ok false
          | .ok (some t2) => matchLoop rest t2
        else .ok false
termination_by pattern.length
decreasing_by
  all_goals exact scanChunk_rest_lt pattern hp

/-- Go `path.Match`, as used on target-name patterns (never containing a
path separator in practice, but modelled in full). -/
def goMatch (pattern name : Str) : Except Unit Bool := matchLoop pattern name

/-- Whether `parseRanges` succeeds, and the rest it returns: the matcher's
control flow never consults the probed character `r` or the accumulator, so
class-range syntax validity is a property of the chunk alone.  Proved to
agree with `parseRanges` in `parseRanges_rangesSyntax`. -/
def rangesSyntax : List Char → Nat → Option (List Char)
  | chunk, nrange =>
    if chunk.head? = some ']' ∧ nrange > 0 then some chunk.tail
    else
      match getEsc chunk with
      | .error _ => none
      | .ok (_, chunk1) =>
        if chunk1.head? = some '-' then
          match getEsc chunk1.tail with
          | .error _ => none
          | .ok (_, chunk3) =>
            -- the guard justifies termination and always holds on this path
            if _h : chunk3.length < chunk.length then rangesSyntax chunk3 (nrange + 1)
            else none
        else
          if _h : chunk1.length < chunk.length then rangesSyntax chunk1 (nrange + 1)
          else none
termination_by chunk _ => chunk.length

/-- Syntactic validity of one non-star chunk, with explicit fuel (the
chunk shrinks at every step, so `chunk.length + 1` fuel always suffices —
`chunkSyntaxOkF_stable`).  Follows the shape of `matchChunk` with the name
argument erased. -/
def chunkSyntaxOkF : Nat → List Char → Bool
  | 0, _ => false
  | _ + 1, [] => true
  | fuel + 1, c :: chunk =>
    if c = '[' then
      match rangesSyntax (if chunk.head? = some '^' then chunk.tail else chunk) 0 with
      | none => false
      | some rest => chunkSyntaxOkF fuel rest
    else if c = '?' then chunkSyntaxOkF fuel chunk
    else if c = '\\' then
      match chunk with
      | [] => false
      | _ :: chunk2 => chunkSyntaxOkF fuel chunk2
    else chunkSyntaxOkF fuel chunk

/-- Syntactic validity of one non-star chunk: every character class closes
properly and no backslash dangles. -/
def chunkSyntaxOk (chunk : List Char) : Bool :=
  chunkSyntaxOkF (chunk.length + 1) chunk

/-- Modelled from the spec: a glob pattern is well formed when every chunk
produced by `scanChunk` has valid class and escape syntax ("malformed glob
syntax is also an error").  `matchLoop_ok_true_wellFormed` below shows a
pattern that successfully matches some name is well formed, so a malformed
pattern can never contribute a match during expansion. -/
def wellFormedPattern (p : List Char) : Bool :=
  if hp : p = [] then true
  else
    if (scanChunk p).1 ∧ (scanChunk p).2.1 = [] then true
    else chunkSyntaxOk (scanChunk p).2.1 && wellFormedPattern (scanChunk p).2.2
termination_by p.length
decreasing_by exact scanChunk_rest_lt p hp

/-! ## `expandTargets`, `newOverrides` -/

/-- The name-collection loop of `expandTargets`: glob-match the pattern
against every known target name, aborting on a bad pattern. -/
def globNames (pattern : Str) : List Str → Except Err (List Str)
  | [] => .ok []
  | n :: rest =>
    match goMatch pattern n with
    | .error _ => .error (.badPattern pattern)
    | .ok true =>
      match globNames pattern rest with
      | .error e => .error e
      | .ok ns => .ok (n :: ns)
    | .ok false => globNames pattern rest

/-- `(c Config) expandTargets(pattern)` (bake.go lines 110-128): an exact
target name expands to itself; otherwise the pattern is glob-matched
against all target names, and zero matches is an error. -/
def expandTargets (c : Config) (pattern : Str) : Except Err (List Str) :=
  if (lookupA c.Target pattern).isSome then .ok [pattern]
  else
    match globNames pattern (c.Target.map Prod.fst) with
    | .error e => .error e
    | .ok [] => .error (.noMatch pattern)
    | .ok names => .ok names

/-- The discriminants of the `switch keys[1]` statement of
`newOverrides`. -/
inductive FieldKey where
  | context | dockerfile | args | labels | tags | cacheFrom | cacheTo
  | targetStage | secrets | ssh | platform | output | noCache | pull | unknown
deriving Repr, DecidableEq

/-- Classify an override field name as the `switch keys[1]` does (the
`default` case becomes `unknown`). -/
def fieldKeyOf (k : Str) : FieldKey :=
  if k = "context".toList then .context
  else if k = "dockerfile".toList then .dockerfile
  else if k = "args".toList then .args
  else if k = "labels".toList then .labels
  else if k = "tags".toList then .tags
  else if k = "cache-from".toList then .cacheFrom
  else if k = "cache-to".toList then .cacheTo
  else if k = "target".toList then .targetStage
  else if k = "secrets".toList then .secrets
  else if k = "ssh".toList then .ssh
  else if k = "platform".toList then .platform
  else if k = "output".toList then .output
  else if k = "no-cache".toList then .noCache
  else if k = "pull".toList then .pull
  else .unknown

/-- The `switch keys[1]` of `newOverrides`, applied to one override-table
entry.  `keys`/`parts` are the split key components and the key/value
split; `env` is the process environment consulted by a valueless `args`
override. -/
def applyOverrideField (env : Str → Option Str) (keys parts : List Str) (t : Target) :
    Except Err Target :=
  match fieldKeyOf (keys.getD 1 []) with
  | .context => .ok { t with Context := some (parts.getD 1 []) }
  | .dockerfile => .ok { t with Dockerfile := some (parts.getD 1 []) }
  | .args =>
    if keys.length ≠ 3 then .error (.argsRequiresName (parts.getD 0 []))
    else if parts.length < 2 then
      match env (keys.getD 2 []) with
      | some v => .ok { t with Args := setA t.Args (keys.getD 2 []) v }
      | none => .ok t
    else .ok { t with Args := setA t.Args (keys.getD 2 []) (parts.getD 1 []) }
  | .labels =>
    if keys.length ≠ 3 then .error (.labelsRequiresName (parts.getD 0 []))
    else .ok { t with Labels := setA t.Labels (keys.getD 2 []) (parts.getD 1 []) }
  | .tags => .ok { t with Tags := some (t.Tags.getD [] ++ [parts.getD 1 []]) }
  | .cacheFrom => .ok { t with CacheFrom := some (t.CacheFrom.getD [] ++ [parts.getD 1 []]) }
  | .cacheTo => .ok { t with CacheTo := some (t.CacheTo.getD [] ++ [parts.getD 1 []]) }
  | .targetStage => .ok { t with Target := some (parts.getD 1 []) }
  | .secrets => .ok { t with Secrets := some (t.Secrets.getD [] ++ [parts.getD 1 []]) }
  | .ssh => .ok { t with SSH := some (t.SSH.getD [] ++ [parts.getD 1 []]) }
  | .platform => .ok { t with Platforms := some (t.Platforms.getD [] ++ [parts.getD 1 []]) }
  | .output => .ok { t with Outputs := some (t.Outputs.getD [] ++ [parts.getD 1 []]) }
  | .noCache =>
    match parseBool (parts.getD 1 []) with
    | .error _ => .error (.invalidBoolValue (parts.getD 1 []) ("no-cache".toList))
    | .ok b => .ok { t with NoCache := b }
  | .pull =>
    match parseBool (parts.getD 1 []) with
    | .error _ => .error (.invalidBoolValue (parts.getD 1 []) ("pull".toList))
    | .ok b => .ok { t with Pull := b }
  | .unknown => .error (.unknownKey (keys.getD 1 []))

/-- The `for _, name := range names` loop of `newOverrides`: apply the
parsed field assignment to every matched name's table entry in turn. -/
def overrideFold (env : Str → Option Str) (keys parts : List Str) :
    List Str → List (Str × Target) → Except Err (List (Str × Target))
  | [], m => .ok m
  | n :: ns, m =>
    match applyOverrideField env keys parts ((lookupA m n).getD emptyTarget) with
    | .error e => .error e
    | .ok t => overrideFold env keys parts ns (setA m n t)

/-- One iteration of the `newOverrides` loop: parse one override string
and fold its field assignment into the override table for every matched
target name. -/
def processOverride (env : Str → Option Str) (c : Config) (m : List (Str × Target))
    (v : Str) : Except Err (List (Str × Target)) :=
  if (splitNC (splitNC v '=' 2 |>.getD 0 []) '.' 3).length < 2 then
    .error (.invalidOverrideKey (splitNC v '=' 2 |>.getD 0 []))
  else if (splitNC v '=' 2).length ≠ 2 ∧
      (splitNC (splitNC v '=' 2 |>.getD 0 []) '.' 3).getD 1 [] ≠ "args".toList then
    .error (.invalidOverrideValue v)
  else
    match expandTargets c ((splitNC (splitNC v '=' 2 |>.getD 0 []) '.' 3).getD 0 []) with
    | .error e => .error e
    | .ok names =>
      overrideFold env (splitNC (splitNC v '=' 2 |>.getD 0 []) '.' 3) (splitNC v '=' 2)
        names m

/-- The outer `for _, v := range v` loop of `newOverrides`. -/
def overridesFold (env : Str → Option Str) (c : Config) :
    List Str → List (Str × Target) → Except Err (List (Str × Target))
  | [], m => .ok m
  | s :: ss, m =>
    match processOverride env c m s with
    | .error e => .error e
    | .ok m1 => overridesFold env c ss m1

/-- `(c Config) newOverrides(v)` (bake.go lines 130-217): build the
per-target-name override table from the raw override strings. -/
def newOverrides (env : Str → Option Str) (c : Config) (v : List Str) :
    Except Err (List (Str × Target)) :=
  overridesFold env c v []

/-! ## Group and target resolution -/

/-- `(c Config) group(name, visited)` (bake.go lines 223-237), with the
shared mutable visited set threaded through and made fuel-explicit; the
fuel case is unreachable at the bound used by `ResolveGroup`. -/
def groupF (c : Config) : Nat → Str → List Str → List Str × List Str
  | 0, _, visited => ([], visited)
  | fuel + 1, name, visited =>
    if name ∈ visited then ([], visited)
    else
      match lookupA c.Group name with
      | none => ([name], visited)
      | some g =>
        let visited1 := name :: visited
        g.Targets.foldl (fun acc t =>
          let r := groupF c fuel t acc.2
          (acc.1 ++ r.1, r.2)) ([], visited1)

/-- `(c Config) ResolveGroup(name)`. -/
def ResolveGroup (c : Config) (name : Str) : List Str :=
  (groupF c (c.Group.length + 1) name []).1

/-- The inherits-folding loop of `(c Config) target`: resolve each
inherited name with the shared visited set and merge non-nil results
left-to-right. -/
def foldInh (rec : Str → List Str → Except Err (Option Target × List Str)) :
    List Str → Target → List Str → Except Err (Target × List Str)
  | [], tt, vis => .ok (tt, vis)
  | n :: ns, tt, vis =>
    match rec n vis with
    | .error e => .error e
    | .ok (none, vis') => foldInh rec ns tt vis'
    | .ok (some tr, vis') => foldInh rec ns (merge tt tr) vis'

/-- `(c Config) target(name, visited, overrides)` (bake.go lines 255-278),
with the shared mutable visited set threaded through and recursion made
fuel-explicit; the fuel-exhaustion error is unreachable at the bound used
by `ResolveTarget` (theorem `targetF_no_fuel_error`). -/
def targetF (c : Config) (o : List (Str × Target)) :
    Nat → Str → List Str → Except Err (Option Target × List Str)
  | 0, _, _ => .error .outOfFuel
  | fuel + 1, name, visited =>
    if name ∈ visited then .ok (none, visited)
    else
      match lookupA c.Target name with
      | none => .error (.targetNotFound name)
      | some t =>
        match foldInh (targetF c o fuel) t.Inherits emptyTarget (name :: visited) with
        | .error e => .error e
        | .ok (tt, visited2) =>
          .ok (some (normalize (merge (merge (merge defaultTarget tt)
            { t with Inherits := [] }) ((lookupA o name).getD emptyTarget))), visited2)

/-- Fuel sufficient for `targetF`'s recursion (one more than the number of
stored targets; see `targetF_fuel_stable`). -/
def fuelBound (c : Config) : Nat := c.Target.length + 1

/-- The final fallback defaults of `ResolveTarget`: context `"."` and
dockerfile `"Dockerfile"` when still unset. -/
def fillDefaults (t : Target) : Target :=
  let t1 := if t.Context = none then { t with Context := some (".".toList) } else t
  if t1.Dockerfile = none then { t1 with Dockerfile := some ("Dockerfile".toList) } else t1

/-- `(c Config) ResolveTarget(name, overrides)` (bake.go lines 239-253).
The `ok none` case is unreachable (`targetF` never truncates at an empty
visited set); Go would dereference a nil pointer there. -/
def ResolveTarget (c : Config) (name : Str) (o : List (Str × Target)) :
    Except Err (Option Target) :=
  match targetF c o (fuelBound c) name [] with
  | .error e => .error e
  | .ok (none, _) => .ok none
  | .ok (some t, _) => .ok (some (fillDefaults t))

/-! ## `mergeConfig` -/

/-- The group half of `mergeConfig`: add missing groups, and append each
incoming member name not already present (dedupe-on-append). -/
def mergeGroups (g1 g2 : List (Str × Group)) : List (Str × Group) :=
  g2.foldl (fun acc kg =>
    match lookupA acc kg.1 with
    | some gE =>
      let newTs := kg.2.Targets.foldl (fun ts t => if t ∈ ts then ts else ts ++ [t]) gE.Targets
      setA acc kg.1 ⟨newTs⟩
    | none => acc ++ [kg]) g1

/-- The target half of `mergeConfig`: add missing targets, `merge` into
existing ones. -/
def mergeTargets (t1 t2 : List (Str × Target)) : List (Str × Target) :=
  t2.foldl (fun acc kt =>
    match lookupA acc kt.1 with
    | some base => setA acc kt.1 (merge base kt.2)
    | none => acc ++ [kt]) t1

/-- `mergeConfig(c1, c2)` (bake.go lines 77-108). -/
def mergeConfig (c1 c2 : Config) : Config :=
  ⟨mergeGroups c1.Group c2.Group, mergeTargets c1.Target c2.Target⟩

/-! ## Basic lemmas about splitting -/

theorem takeWhile_ne_append (sep : Char) (a b : List Char) (h : sep ∉ a) :
    (a ++ sep :: b).takeWhile (· ≠ sep) = a := by
  induction a with
  | nil => simp
  | cons x a' ih =>
    have hx : x ≠ sep := fun hh => h (by simp [hh])
    have ha' : sep ∉ a' := fun hm => h (List.mem_cons_of_mem _ hm)
    simpa [List.takeWhile_cons, hx] using ih ha'

theorem dropWhile_ne_append (sep : Char) (a b : List Char) (h : sep ∉ a) :
    (a ++ sep :: b).dropWhile (· ≠ sep) = sep :: b := by
  induction a with
  | nil => simp
  | cons x a' ih =>
    have hx : x ≠ sep := fun hh => h (by simp [hh])
    have ha' : sep ∉ a' := fun hm => h (List.mem_cons_of_mem _ hm)
    simpa [List.dropWhile_cons, hx] using ih ha'

theorem splitGo_append (sep : Char) (a b : List Char) (ha : sep ∉ a) (n : Nat) :
    splitGo sep (a ++ sep :: b) (n + 1) = a :: splitGo sep b n := by
  rw [splitGo]
  simp only [takeWhile_ne_append sep a b ha, dropWhile_ne_append sep a b ha]

theorem splitGo_not_mem (sep : Char) (s : List Char) (h : sep ∉ s) (n : Nat) :
    splitGo sep s n = [s] := by
  cases n with
  | zero => rw [splitGo]
  | succ n =>
    rw [splitGo]
    have hd : s.dropWhile (· ≠ sep) = [] := by
      rw [List.dropWhile_eq_nil_iff]
      intro x hx
      simp only [decide_eq_true_eq]
      intro hxx
      exact absurd (hxx ▸ hx) h
    simp only [hd]

/-! ## Concrete fixtures for the example-level claims -/

/-- The empty process environment (no variables set). -/
def env0 : Str → Option Str := fun _ => none

/-- The `webDEP` target of the test configuration: declares
`args.VAR_INHERITED = "webDEP"` and `args.VAR_BOTH = "webDEP"`. -/
def webDEPTarget : Target :=
  { Args := [("VAR_INHERITED".toList, "webDEP".toList),
             ("VAR_BOTH".toList, "webDEP".toList)] }

/-- The `webapp` target of the test configuration: inherits `webDEP`,
declares `dockerfile = "Dockerfile.webapp"` and
`args.VAR_BOTH = "webapp"`. -/
def webappTarget : Target :=
  { Inherits := ["webDEP".toList],
    Dockerfile := some ("Dockerfile.webapp".toList),
    Args := [("VAR_BOTH".toList, "webapp".toList)] }

/-- The two-target test configuration. -/
def cfgWeb : Config :=
  { Target := [("webDEP".toList, webDEPTarget), ("webapp".toList, webappTarget)] }

/-- A one-target configuration with an undistinguished target `a`. -/
def cfgA : Config := { Target := [("a".toList, emptyTarget)] }

end Bake

deriving instance DecidableEq for Except

namespace Bake

/-- The override table produced by `webDEP.args.VAR_INHERITED=override`
against `cfgWeb` (total extraction of the `ok` value). -/
def c3Table : List (Str × Target) :=
  (newOverrides env0 cfgWeb ["webDEP.args.VAR_INHERITED=override".toList]).toOption.getD []

/-- The target obtained by resolving `webapp` under `c3Table`. -/
def c3Resolved : Target :=
  (((ResolveTarget cfgWeb ("webapp".toList) c3Table).toOption).getD none).getD emptyTarget

/-- C3: with target `webDEP` declaring `args.VAR_INHERITED="webDEP"` and
`args.VAR_BOTH="webDEP"`, and target `webapp` inheriting `webDEP` and
declaring `args.VAR_BOTH="webapp"`, resolving `webapp` with the single
override `webDEP.args.VAR_INHERITED=override` (addressed at the ancestor)
yields `args.VAR_INHERITED="override"` and `args.VAR_BOTH="webapp"`. -/
theorem ancestor_override_propagates_own_field_wins :
    newOverrides env0 cfgWeb ["webDEP.args.VAR_INHERITED=override".toList] = .ok c3Table ∧
    ResolveTarget cfgWeb ("webapp".toList) c3Table = .ok (some c3Resolved) ∧
    lookupA c3Resolved.Args ("VAR_INHERITED".toList) = some ("override".toList) ∧
    lookupA c3Resolved.Args ("VAR_BOTH".toList) = some ("webapp".toList) := by
  refine ⟨by decide, by decide, by decide, by decide⟩

/-- The override table produced by `a.no-cache=true` against `cfgA`. -/
def c1Table : List (Str × Target) :=
  (newOverrides env0 cfgA ["a.no-cache=true".toList]).toOption.getD []

/-- The target obtained by resolving `a` under `c1Table`. -/
def c1Resolved : Target :=
  (((ResolveTarget cfgA ("a".toList) c1Table).toOption).getD none).getD emptyTarget

/-- C1 (failing input): `a.no-cache=notabool` is rejected with an
invalid-boolean-value error naming the offending value, and
`a.no-cache=true` parses into an override-table entry whose `NoCache` flag
is `true` — but the resolved target still carries `NoCache = false`,
because `merge` never copies `NoCache`/`Pull` from the incoming record, so
the boolean override (contrary to the spec, and to the evident intent of
the `no-cache`/`pull` cases of `newOverrides`) never reaches the resolved
target. -/
theorem no_cache_override_parses_but_is_dropped_by_merge :
    newOverrides env0 cfgA ["a.no-cache=notabool".toList] =
      .error (.invalidBoolValue ("notabool".toList) ("no-cache".toList)) ∧
    newOverrides env0 cfgA ["a.no-cache=true".toList] = .ok c1Table ∧
    (lookupA c1Table ("a".toList)).map Target.NoCache = some true ∧
    ResolveTarget cfgA ("a".toList) c1Table = .ok (some c1Resolved) ∧
    c1Resolved.NoCache = false := by
  refine ⟨by decide, by decide, by decide, by decide, by decide⟩

/-- C2 (counterexample): the override key `platforms` (as the spec spells
it) is not recognized — `a.platforms=linux/amd64` is rejected as an
unknown key even though `a` is a known target. -/
theorem platforms_override_key_rejected :
    newOverrides env0 cfgA ["a.platforms=linux/amd64".toList] =
      .error (.unknownKey ("platforms".toList)) := by
  decide

/-! ## Deduplication (claim C8) -/

/-- Modelled from the spec's words: "the sublist of first occurrences in
their original order" — keep the head, then recur on the tail with all
later copies of the head removed. -/
def firstOccurrences : List Str → List Str
  | [] => []
  | x :: xs => x :: firstOccurrences (xs.filter (· ≠ x))
termination_by l => l.length
decreasing_by
  simp only [List.length_cons]
  exact Nat.lt_succ_of_le (List.length_filter_le _ _)

theorem mem_firstOccurrences (y : Str) (l : List Str) (h : y ∈ firstOccurrences l) :
    y ∈ l := by
  induction l using firstOccurrences.induct with
  | case1 => simp [firstOccurrences] at h
  | case2 x xs ih =>
    rw [firstOccurrences] at h
    rcases List.mem_cons.mp h with h1 | h1
    · simp [h1]
    · exact List.mem_cons_of_mem _ (List.mem_of_mem_filter (ih h1))

theorem nodup_firstOccurrences (l : List Str) : (firstOccurrences l).Nodup := by
  induction l using firstOccurrences.induct with
  | case1 => simp [firstOccurrences]
  | case2 x xs ih =>
    rw [firstOccurrences]
    refine List.nodup_cons.mpr ⟨?_, ih⟩
    intro hmem
    have := List.of_mem_filter (mem_firstOccurrences _ _ hmem)
    simp at this

theorem firstOccurrences_of_nodup (l : List Str) (h : l.Nodup) :
    firstOccurrences l = l := by
  induction l using firstOccurrences.induct with
  | case1 => rw [firstOccurrences]
  | case2 x xs ih =>
    rw [firstOccurrences]
    obtain ⟨hx, hxs⟩ := List.nodup_cons.mp h
    have hf : xs.filter (· ≠ x) = xs := by
      apply List.filter_eq_self.mpr
      intro a ha
      simp only [decide_eq_true_eq]
      intro haa
      exact hx (haa ▸ ha)
    rw [hf] at ih ⊢
    rw [ih hxs]

theorem removeDupesLoop_eq (s : List Str) :
    ∀ seen, removeDupesLoop s seen = firstOccurrences (s.filter (· ∉ seen)) := by
  induction s with
  | nil => intro seen; simp [removeDupesLoop, firstOccurrences]
  | cons v rest ih =>
    intro seen
    by_cases hv : v ∈ seen
    · rw [removeDupesLoop]
      simp only [if_pos hv]
      rw [ih seen]
      congr 1
      simp [List.filter_cons, hv]
    · rw [removeDupesLoop]
      simp only [if_neg hv]
      have hfc : (v :: rest).filter (· ∉ seen) = v :: rest.filter (· ∉ seen) := by
        simp [List.filter_cons, hv]
      rw [hfc, firstOccurrences, ih (v :: seen)]
      congr 1
      rw [List.filter_filter]
      congr 1
      apply List.filter_congr
      intro a _
      by_cases h1 : a = v
      · subst h1; simp
      · by_cases h2 : a ∈ seen <;> simp [h1, h2]

theorem removeDupes_eq_firstOccurrences (s : List Str) :
    removeDupes s = firstOccurrences s := by
  rw [removeDupes, removeDupesLoop_eq]
  congr 1
  apply List.filter_eq_self.mpr
  intro a _
  simp

theorem removeDupes_idem (s : List Str) :
    removeDupes (removeDupes s) = removeDupes s := by
  rw [removeDupes_eq_firstOccurrences, removeDupes_eq_firstOccurrences]
  exact firstOccurrences_of_nodup _ (nodup_firstOccurrences s)

/-- C8: `removeDupes` returns the sublist of first occurrences in their
original order; `["a","a","b"]` normalizes to `["a","b"]`; deduplication
is idempotent, and so is `normalize` on whole `Target` records. -/
theorem removeDupes_first_seen_order_and_idempotent :
    (∀ s : List Str, removeDupes s = firstOccurrences s) ∧
    removeDupes ["a".toList, "a".toList, "b".toList] = ["a".toList, "b".toList] ∧
    (∀ s : List Str, removeDupes (removeDupes s) = removeDupes s) ∧
    (∀ t : Target, normalize (normalize t) = normalize t) := by
  refine ⟨removeDupes_eq_firstOccurrences, by decide, removeDupes_idem, ?_⟩
  intro t
  have hopt : ∀ x : Option (List Str),
      (x.map removeDupes).map removeDupes = x.map removeDupes := by
    intro x
    cases x with
    | none => rfl
    | some l => simp [removeDupes_idem]
  simp only [normalize, hopt]

/-! ## The inherits field of resolved targets (claim C10) -/

theorem merge_Inherits (a b : Target) : (merge a b).Inherits = a.Inherits ++ b.Inherits := rfl

theorem normalize_Inherits (t : Target) : (normalize t).Inherits = t.Inherits := rfl

theorem fillDefaults_Inherits (t : Target) : (fillDefaults t).Inherits = t.Inherits := by
  unfold fillDefaults
  split <;> (dsimp only; split <;> rfl)

theorem applyOverrideField_Inherits (env : Str → Option Str) (keys parts : List Str)
    (t t' : Target) (h : applyOverrideField env keys parts t = .ok t') :
    t'.Inherits = t.Inherits := by
  unfold applyOverrideField at h
  repeat' split at h
  all_goals
    first
      | exact Except.noConfusion h
      | (injection h with h; subst h; rfl)

theorem mem_setA {α : Type} (m : List (Str × α)) (k : Str) (v : α) (p : Str × α)
    (hp : p ∈ setA m k v) : p ∈ m ∨ p.2 = v := by
  induction m with
  | nil =>
    simp only [setA, List.mem_singleton] at hp
    right
    rw [hp]
  | cons q rest ih =>
    rw [setA] at hp
    split at hp
    · rcases List.mem_cons.mp hp with h1 | h1
      · right; rw [h1]
      · left; exact List.mem_cons_of_mem _ h1
    · rcases List.mem_cons.mp hp with h1 | h1
      · left; rw [h1]; exact List.mem_cons_self _ _
      · rcases ih h1 with h2 | h2
        · left; exact List.mem_cons_of_mem _ h2
        · right; exact h2

theorem lookupA_mem {α : Type} (m : List (Str × α)) (k : Str) (v : α)
    (h : lookupA m k = some v) : ∃ k', (k', v) ∈ m := by
  induction m with
  | nil => simp [lookupA] at h
  | cons q rest ih =>
    rw [lookupA] at h
    split at h
    · injection h with h
      refine ⟨q.1, ?_⟩
      rw [← h]
      exact List.mem_cons_self _ _
    · obtain ⟨k', hk⟩ := ih h
      exact ⟨k', List.mem_cons_of_mem _ hk⟩

theorem overrideFold_Inherits (env : Str → Option Str) (keys parts : List Str) :
    ∀ (names : List Str) (m m' : List (Str × Target)),
    (∀ p ∈ m, p.2.Inherits = ([] : List Str)) →
    overrideFold env keys parts names m = .ok m' →
    ∀ p ∈ m', p.2.Inherits = ([] : List Str) := by
  intro names
  induction names with
  | nil =>
    intro m m' hm h
    rw [overrideFold] at h
    injection h with h
    subst h
    exact hm
  | cons n ns ih =>
    intro m m' hm h
    rw [overrideFold] at h
    split at h
    · simp at h
    next t' happly =>
      refine ih (setA m n t') m' ?_ h
      intro p hp
      rcases mem_setA _ _ _ _ hp with h1 | h1
      · exact hm p h1
      · rw [h1]
        rw [applyOverrideField_Inherits env _ _ _ _ happly]
        cases hl : lookupA m n with
        | none => simp [emptyTarget]
        | some tb =>
          simp only [Option.getD_some]
          obtain ⟨k', hk⟩ := lookupA_mem _ _ _ hl
          exact hm (k', tb) hk

theorem processOverride_Inherits (env : Str → Option Str) (c : Config)
    (m m' : List (Str × Target)) (v : Str)
    (hm : ∀ p ∈ m, p.2.Inherits = ([] : List Str))
    (h : processOverride env c m v = .ok m') :
    ∀ p ∈ m', p.2.Inherits = ([] : List Str) := by
  unfold processOverride at h
  split_ifs at h
  all_goals
    first
      | exact Except.noConfusion h
      | (split at h <;>
          first
            | exact Except.noConfusion h
            | exact overrideFold_Inherits env _ _ _ m m' hm h)

theorem newOverrides_Inherits (env : Str → Option Str) (c : Config) (v : List Str)
    (m : List (Str × Target)) (h : newOverrides env c v = .ok m) :
    ∀ p ∈ m, p.2.Inherits = ([] : List Str) := by
  unfold newOverrides at h
  suffices hgen : ∀ (vs : List Str) (m0 : List (Str × Target)),
      (∀ p ∈ m0, p.2.Inherits = ([] : List Str)) →
      overridesFold env c vs m0 = .ok m →
      ∀ p ∈ m, p.2.Inherits = ([] : List Str) by
    exact hgen v [] (by simp) h
  intro vs
  induction vs with
  | nil =>
    intro m0 hm0 hf
    rw [overridesFold] at hf
    injection hf with hf
    subst hf
    exact hm0
  | cons s rest ih =>
    intro m0 hm0 hf
    rw [overridesFold] at hf
    split at hf
    · simp at hf
    next m1 hp =>
      exact ih m1 (processOverride_Inherits env c m0 m1 s hm0 hp) hf

theorem foldInh_Inherits (rec : Str → List Str → Except Err (Option Target × List Str))
    (hrec : ∀ n vis tr vis', rec n vis = .ok (some tr, vis') → tr.Inherits = ([] : List Str)) :
    ∀ (ns : List Str) (tt : Target) (vis : List Str) (tt' : Target) (vis' : List Str),
    tt.Inherits = ([] : List Str) →
    foldInh rec ns tt vis = .ok (tt', vis') → tt'.Inherits = ([] : List Str) := by
  intro ns
  induction ns with
  | nil =>
    intro tt vis tt' vis' htt h
    rw [foldInh] at h
    simp only [Except.ok.injEq, Prod.mk.injEq] at h
    rw [← h.1]
    exact htt
  | cons n ns ih =>
    intro tt vis tt' vis' htt h
    rw [foldInh] at h
    rcases hr : rec n vis with e | ⟨_ | tr, vis1⟩ <;> rw [hr] at h <;> dsimp only at h
    · exact Except.noConfusion h
    · exact ih tt vis1 tt' vis' htt h
    · refine ih (merge tt tr) vis1 tt' vis' ?_ h
      rw [merge_Inherits, htt, hrec n vis tr vis1 hr]
      rfl

theorem targetF_Inherits (c : Config) (o : List (Str × Target))
    (ho : ∀ p ∈ o, p.2.Inherits = ([] : List Str)) :
    ∀ (fuel : Nat) (n : Str) (vis : List Str) (tt : Target) (vis' : List Str),
    targetF c o fuel n vis = .ok (some tt, vis') → tt.Inherits = ([] : List Str) := by
  intro fuel
  induction fuel with
  | zero =>
    intro n vis tt vis' h
    rw [targetF] at h
    simp at h
  | succ fuel ih =>
    intro n vis tt vis' h
    rw [targetF] at h
    split_ifs at h
    · simp at h
    · split at h
      · simp at h
      next t hlook =>
        split at h
        · simp at h
        next tt0 vis2 hfold =>
          simp only [Except.ok.injEq, Prod.mk.injEq, Option.some.injEq] at h
          obtain ⟨h1, _⟩ := h
          have htt0 : tt0.Inherits = ([] : List Str) := by
            refine foldInh_Inherits (targetF c o fuel) ?_ t.Inherits emptyTarget _ tt0 vis2 rfl hfold
            intro n1 v1 tr v1' hh
            exact ih n1 v1 tr v1' hh
          have hov : ((lookupA o n).getD emptyTarget).Inherits = ([] : List Str) := by
            cases hl : lookupA o n with
            | none => rfl
            | some tb =>
              simp only [Option.getD_some]
              obtain ⟨k', hk⟩ := lookupA_mem _ _ _ hl
              exact ho (k', tb) hk
          rw [← h1, normalize_Inherits, merge_Inherits, merge_Inherits, merge_Inherits,
            htt0, hov]
          rfl

/-- C10: every `Target` returned by a successful `ResolveTarget` has an
empty inherits list: tables built by `newOverrides` never set `Inherits`,
and under any override table whose entries all have empty `Inherits`, the
resolver clears the target's own inherits before the final merge, so the
result's inherits list is empty. -/
theorem resolved_target_has_empty_inherits :
    (∀ (env : Str → Option Str) (c : Config) (v : List Str) (m : List (Str × Target)),
      newOverrides env c v = .ok m → ∀ p ∈ m, p.2.Inherits = ([] : List Str)) ∧
    (∀ (c : Config) (o : List (Str × Target)) (n : Str) (t : Target),
      (∀ p ∈ o, p.2.Inherits = ([] : List Str)) →
      ResolveTarget c n o = .ok (some t) → t.Inherits = ([] : List Str)) := by
  refine ⟨newOverrides_Inherits, ?_⟩
  intro c o n t ho h
  unfold ResolveTarget at h
  split at h
  · simp at h
  · simp at h
  next tt vis heq =>
    injection h with h
    injection h with h
    rw [← h, fillDefaults_Inherits]
    exact targetF_Inherits c o ho _ n [] tt vis heq

/-- Witness for C10: resolving `webapp` in the test configuration under
the table of `webDEP.args.VAR_INHERITED=override` yields an empty
inherits list. -/
theorem resolved_target_has_empty_inherits_witness :
    c3Resolved.Inherits = ([] : List Str) :=
  resolved_target_has_empty_inherits.2 cfgWeb c3Table ("webapp".toList) c3Resolved
    (by decide) (by decide)

/-! ## The recognized platform override key (claim C2, amended) -/

theorem splitNC_eq_append (sep : Char) (a b : List Char) (h : sep ∉ a) :
    splitNC (a ++ sep :: b) sep 2 = [a, b] := by
  rw [splitNC, splitGo_append sep a b h 0, splitGo]

theorem splitNC_three (sep : Char) (a b : List Char) (ha : sep ∉ a) (hb : sep ∉ b) :
    splitNC (a ++ sep :: b) sep 3 = [a, b] := by
  rw [splitNC, splitGo_append sep a b ha 1, splitGo_not_mem sep b hb 1]

/-- C2 (amended): the recognized override key for the platforms list is
`platform` (singular).  For every config, environment, known target name
`t` (containing no `.` or `=`) and value `v`, the single override string
`t.platform=v` is accepted and produces a table whose entry for `t`
appends `v` to the `Platforms` list, while `t.platforms=v` is rejected as
an unknown override key. -/
theorem platform_override_recognized_platforms_rejected
    (env : Str → Option Str) (c : Config) (t v : Str)
    (ht : (lookupA c.Target t).isSome = true)
    (hdot : '.' ∉ t) (heqc : '=' ∉ t) :
    newOverrides env c [t ++ ".platform=".toList ++ v] =
      .ok [(t, { emptyTarget with Platforms := some [v] })] ∧
    newOverrides env c [t ++ ".platforms=".toList ++ v] =
      .error (.unknownKey ("platforms".toList)) := by
  have hs1 : t ++ ".platform=".toList ++ v = (t ++ ".platform".toList) ++ '=' :: v := by
    rw [show (".platform=".toList : List Char) = ".platform".toList ++ ['='] from rfl]
    simp
  have hs2 : t ++ ".platforms=".toList ++ v = (t ++ ".platforms".toList) ++ '=' :: v := by
    rw [show (".platforms=".toList : List Char) = ".platforms".toList ++ ['='] from rfl]
    simp
  have hm1 : ('=' : Char) ∉ t ++ ".platform".toList := by
    intro hmem
    rcases List.mem_append.mp hmem with hm | hm
    · exact heqc hm
    · revert hm; decide
  have hm2 : ('=' : Char) ∉ t ++ ".platforms".toList := by
    intro hmem
    rcases List.mem_append.mp hmem with hm | hm
    · exact heqc hm
    · revert hm; decide
  have hparts1 : splitNC (t ++ ".platform=".toList ++ v) '=' 2 = [t ++ ".platform".toList, v] := by
    rw [hs1]
    exact splitNC_eq_append '=' _ v hm1
  have hparts2 : splitNC (t ++ ".platforms=".toList ++ v) '=' 2 =
      [t ++ ".platforms".toList, v] := by
    rw [hs2]
    exact splitNC_eq_append '=' _ v hm2
  have hk1 : splitNC (t ++ ".platform".toList) '.' 3 = [t, "platform".toList] := by
    rw [show (".platform".toList : List Char) = '.' :: "platform".toList from rfl]
    exact splitNC_three '.' t ("platform".toList) hdot (by decide)
  have hk2 : splitNC (t ++ ".platforms".toList) '.' 3 = [t, "platforms".toList] := by
    rw [show (".platforms".toList : List Char) = '.' :: "platforms".toList from rfl]
    exact splitNC_three '.' t ("platforms".toList) hdot (by decide)
  simp at hparts1 hparts2 hk1 hk2
  constructor
  · rw [newOverrides, overridesFold, processOverride]
    simp +decide [hparts1, hk1, expandTargets, ht, overrideFold, applyOverrideField,
      fieldKeyOf, setA, overridesFold, emptyTarget, lookupA]
  · rw [newOverrides, overridesFold, processOverride]
    simp +decide [hparts2, hk2, expandTargets, ht, overrideFold, applyOverrideField,
      fieldKeyOf, lookupA]

/-- Witness for the amended C2 at a concrete input: target `a`, value
`linux/amd64`. -/
theorem platform_override_recognized_witness :
    newOverrides env0 cfgA ["a".toList ++ ".platform=".toList ++ "linux/amd64".toList] =
      .ok [("a".toList, { emptyTarget with Platforms := some ["linux/amd64".toList] })] ∧
    newOverrides env0 cfgA ["a".toList ++ ".platforms=".toList ++ "linux/amd64".toList] =
      .error (.unknownKey ("platforms".toList)) :=
  platform_override_recognized_platforms_rejected env0 cfgA ("a".toList)
    ("linux/amd64".toList) (by decide) (by decide) (by decide)


/-! ## Cross-file merge of build arguments (claim C6) -/

theorem lookupA_setA_self {α : Type} (m : List (Str × α)) (k : Str) (v : α) :
    lookupA (setA m k v) k = some v := by
  induction m with
  | nil => simp [setA, lookupA]
  | cons q rest ih =>
    rw [setA]
    split
    next hq => rw [lookupA, if_pos hq]
    next hq => rw [lookupA, if_neg hq]; exact ih

theorem lookupA_setA_ne {α : Type} (m : List (Str × α)) (k k' : Str) (v : α)
    (hne : k' ≠ k) : lookupA (setA m k v) k' = lookupA m k' := by
  induction m with
  | nil =>
    rw [setA, lookupA, lookupA, lookupA]
    rw [if_neg (fun hh => hne hh.symm)]
  | cons q rest ih =>
    rw [setA]
    split
    next hq =>
      rw [lookupA, lookupA]
      split
      next hq2 => exact absurd (hq2.symm.trans hq) hne
      next hq2 => rfl
    next hq =>
      rw [lookupA, lookupA]
      split
      next hq2 => rfl
      next hq2 => exact ih

theorem lookupA_append_of_some {α : Type} (m l : List (Str × α)) (k : Str) (x : α)
    (h : lookupA m k = some x) : lookupA (m ++ l) k = some x := by
  induction m with
  | nil => simp [lookupA] at h
  | cons q rest ih =>
    rw [lookupA] at h
    rw [List.cons_append, lookupA]
    split at h
    next hq => rw [if_pos hq]; exact h
    next hq => rw [if_neg hq]; exact ih h

/-- One step of `mergeTargets` preserves an existing binding at any other
key. -/
theorem mergeTargets_step_preserves (acc : List (Str × Target)) (q : Str × Target)
    (name : Str) (x : Target) (hne : q.1 ≠ name) (h : lookupA acc name = some x) :
    lookupA (match lookupA acc q.1 with
      | some base => setA acc q.1 (merge base q.2)
      | none => acc ++ [q]) name = some x := by
  cases hb : lookupA acc q.1 with
  | some base =>
    rw [lookupA_setA_ne acc q.1 name (merge base q.2) (fun hh => hne hh.symm)]
    exact h
  | none => exact lookupA_append_of_some acc [q] name x h

theorem mergeTargets_fold_preserves (rest : List (Str × Target)) :
    ∀ (acc : List (Str × Target)) (name : Str) (x : Target),
    (∀ q ∈ rest, q.1 ≠ name) → lookupA acc name = some x →
    lookupA (rest.foldl (fun acc kt =>
      match lookupA acc kt.1 with
      | some base => setA acc kt.1 (merge base kt.2)
      | none => acc ++ [kt]) acc) name = some x := by
  induction rest with
  | nil => intro acc name x _ h; exact h
  | cons q rest ih =>
    intro acc name x hne h
    rw [List.foldl_cons]
    refine ih _ name x (fun q2 hq2 => hne q2 (List.mem_cons_of_mem _ hq2)) ?_
    exact mergeTargets_step_preserves acc q name x (hne q (List.mem_cons_self _ _)) h

theorem mergeTargets_lookup (t2list : List (Str × Target)) :
    ∀ (t1list : List (Str × Target)) (name : Str) (tgt1 tgt2 : Target),
    (t2list.map Prod.fst).Nodup → (name, tgt2) ∈ t2list →
    lookupA t1list name = some tgt1 →
    lookupA (mergeTargets t1list t2list) name = some (merge tgt1 tgt2) := by
  induction t2list with
  | nil => intro _ _ _ _ _ hmem _; simp at hmem
  | cons q rest ih =>
    intro t1list name tgt1 tgt2 hnd hmem h1
    rw [List.map_cons, List.nodup_cons] at hnd
    rw [mergeTargets, List.foldl_cons]
    rcases List.mem_cons.mp hmem with hq | hq
    · have hkey : q.1 = name := by rw [← hq]
      have hval : q.2 = tgt2 := by rw [← hq]
      rw [hkey, hval, h1]
      have hrest : ∀ p ∈ rest, p.1 ≠ name := by
        intro p hp hcontra
        exact hnd.1 (hkey ▸ hcontra ▸ List.mem_map_of_mem Prod.fst hp)
      have : lookupA (setA t1list name (merge tgt1 tgt2)) name = some (merge tgt1 tgt2) :=
        lookupA_setA_self t1list name (merge tgt1 tgt2)
      exact mergeTargets_fold_preserves rest _ name (merge tgt1 tgt2) hrest this
    · have hne : q.1 ≠ name := by
        intro hcontra
        exact hnd.1 (hcontra ▸ List.mem_map_of_mem Prod.fst (a := (name, tgt2)) hq)
      have h1' := mergeTargets_step_preserves t1list q name tgt1 hne h1
      exact ih _ name tgt1 tgt2 hnd.2 hq h1'

theorem lookupA_none_of_not_mem {α : Type} (m : List (Str × α)) (k : Str)
    (h : k ∉ m.map Prod.fst) : lookupA m k = none := by
  induction m with
  | nil => rw [lookupA]
  | cons q rest ih =>
    rw [List.map_cons] at h
    rw [lookupA]
    have hne : ¬(q.1 = k) := fun hq => h (by rw [← hq]; exact List.mem_cons_self _ _)
    rw [if_neg hne]
    exact ih (fun hm => h (List.mem_cons_of_mem _ hm))

theorem setA_keys_mem {α : Type} (m : List (Str × α)) (k : Str) (v : α) (x : Str)
    (hx : x ∈ (setA m k v).map Prod.fst) : x = k ∨ x ∈ m.map Prod.fst := by
  induction m with
  | nil =>
    rw [setA] at hx
    simp at hx
    exact Or.inl hx
  | cons q rest ih =>
    rw [setA] at hx
    split at hx
    next hq =>
      rw [List.map_cons] at hx
      exact Or.inr hx
    next hq =>
      rw [List.map_cons] at hx
      rcases List.mem_cons.mp hx with h1 | h1
      · exact Or.inr (h1 ▸ List.mem_cons_self _ _)
      · rcases ih h1 with h2 | h2
        · exact Or.inl h2
        · exact Or.inr (List.mem_cons_of_mem _ h2)

theorem setA_keys_nodup {α : Type} (m : List (Str × α)) (k : Str) (v : α)
    (h : (m.map Prod.fst).Nodup) : ((setA m k v).map Prod.fst).Nodup := by
  induction m with
  | nil => simp [setA]
  | cons q rest ih =>
    rw [List.map_cons, List.nodup_cons] at h
    rw [setA]
    split
    next hq =>
      rw [List.map_cons, List.nodup_cons]
      exact ⟨h.1, h.2⟩
    next hq =>
      rw [List.map_cons, List.nodup_cons]
      refine ⟨?_, ih h.2⟩
      intro hmem
      rcases setA_keys_mem rest k v q.1 hmem with hm | hm
      · exact hq hm
      · exact h.1 hm

theorem unionA_lookup (l : List (Str × Str)) :
    ∀ (m : List (Str × Str)) (k : Str), ((l.map Prod.fst).Nodup) →
    lookupA (unionA m l) k =
      (match lookupA l k with
        | some v => some v
        | none => lookupA m k) := by
  induction l with
  | nil => intro m k _; rw [unionA, List.foldl_nil, lookupA]
  | cons q rest ih =>
    intro m k hnd
    rw [List.map_cons, List.nodup_cons] at hnd
    rw [unionA, List.foldl_cons]
    rw [show rest.foldl (fun acc kv => setA acc kv.1 kv.2) (setA m q.1 q.2) =
      unionA (setA m q.1 q.2) rest from rfl]
    rw [ih (setA m q.1 q.2) k hnd.2]
    rw [lookupA]
    by_cases hk : q.1 = k
    · rw [if_pos hk]
      have hrest : lookupA rest k = none :=
        lookupA_none_of_not_mem rest k (fun hm => hnd.1 (hk ▸ hm))
      rw [hrest]
      rw [hk]
      exact lookupA_setA_self m k q.2
    · rw [if_neg hk]
      cases hr : lookupA rest k with
      | none => exact lookupA_setA_ne m q.1 k q.2 (fun hh => hk hh.symm)
      | some x => rfl


theorem normalize_Args (t : Target) : (normalize t).Args = t.Args := rfl

theorem merge_Args (a b : Target) : (merge a b).Args = unionA a.Args b.Args := rfl

theorem fillDefaults_Args (t : Target) : (fillDefaults t).Args = t.Args := by
  unfold fillDefaults
  split <;> (dsimp only; split <;> rfl)

theorem unionA_keys_nodup (l : List (Str × Str)) :
    ∀ m : List (Str × Str), (m.map Prod.fst).Nodup → ((unionA m l).map Prod.fst).Nodup := by
  induction l with
  | nil => intro m hm; exact hm
  | cons q rest ih =>
    intro m hm
    rw [unionA, List.foldl_cons]
    exact ih (setA m q.1 q.2) (setA_keys_nodup m q.1 q.2 hm)

/-- With an empty override table, a binding declared in the target's own
`Args` survives resolution unchanged. -/
theorem resolveTarget_own_args (c : Config) (name : Str) (t : Target) (k v : Str)
    (hlook : lookupA c.Target name = some t)
    (hnd : (t.Args.map Prod.fst).Nodup)
    (hk : lookupA t.Args k = some v) :
    ∀ rt, ResolveTarget c name [] = .ok (some rt) → lookupA rt.Args k = some v := by
  intro rt h
  unfold ResolveTarget at h
  cases ht : targetF c [] (fuelBound c) name [] with
  | error e => rw [ht] at h; exact Except.noConfusion h
  | ok p =>
    obtain ⟨r, vis⟩ := p
    cases r with
    | none =>
      rw [ht] at h
      dsimp only at h
      injection h with h
      exact Option.noConfusion h
    | some tt =>
      rw [ht] at h
      dsimp only at h
      injection h with h
      injection h with h
      rw [fuelBound, targetF] at ht
      rw [if_neg (by simp : ¬ name ∈ ([] : List Str))] at ht
      rw [hlook] at ht
      dsimp only at ht
      cases hfold : foldInh (targetF c [] c.Target.length) t.Inherits emptyTarget
          (name :: []) with
      | error e => rw [hfold] at ht; exact Except.noConfusion ht
      | ok q =>
        obtain ⟨tt0, vis2⟩ := q
        rw [hfold] at ht
        dsimp only at ht
        simp only [Except.ok.injEq, Prod.mk.injEq, Option.some.injEq] at ht
        obtain ⟨htt, _⟩ := ht
        rw [← h, fillDefaults_Args, ← htt, normalize_Args]
        have hgoal : lookupA (unionA (unionA defaultTarget.Args tt0.Args) t.Args) k =
            some v := by
          rw [unionA_lookup t.Args (unionA defaultTarget.Args tt0.Args) k hnd, hk]
        exact hgoal

/-- C6: merging two config records where the second declares an extra args
key on a target already defined in the first yields a merged target whose
`Args` carry both bindings (the second file winning per key), and
resolution (with no overrides) preserves both bindings. -/
theorem cross_file_merge_unions_args (c1 c2 : Config) (name : Str) (t1 t2 : Target)
    (k1 v1 k2 v2 : Str)
    (hnd2 : (c2.Target.map Prod.fst).Nodup)
    (h1 : lookupA c1.Target name = some t1)
    (h2 : (name, t2) ∈ c2.Target)
    (hk1 : lookupA t1.Args k1 = some v1)
    (hk2 : lookupA t2.Args k2 = some v2)
    (hk12 : lookupA t2.Args k1 = none)
    (hnd1 : (t1.Args.map Prod.fst).Nodup)
    (hndA2 : (t2.Args.map Prod.fst).Nodup) :
    lookupA (mergeConfig c1 c2).Target name = some (merge t1 t2) ∧
    lookupA (merge t1 t2).Args k1 = some v1 ∧
    lookupA (merge t1 t2).Args k2 = some v2 ∧
    (∀ rt, ResolveTarget (mergeConfig c1 c2) name [] = .ok (some rt) →
      lookupA rt.Args k1 = some v1 ∧ lookupA rt.Args k2 = some v2) := by
  have hmt : lookupA (mergeConfig c1 c2).Target name = some (merge t1 t2) :=
    mergeTargets_lookup c2.Target c1.Target name t1 t2 hnd2 h2 h1
  have hargs1 : lookupA (merge t1 t2).Args k1 = some v1 := by
    rw [merge_Args, unionA_lookup t2.Args t1.Args k1 hndA2, hk12]
    exact hk1
  have hargs2 : lookupA (merge t1 t2).Args k2 = some v2 := by
    rw [merge_Args, unionA_lookup t2.Args t1.Args k2 hndA2, hk2]
  have hndm : ((merge t1 t2).Args.map Prod.fst).Nodup := by
    rw [merge_Args]
    exact unionA_keys_nodup t2.Args t1.Args hnd1
  refine ⟨hmt, hargs1, hargs2, fun rt hrt => ⟨?_, ?_⟩⟩
  · exact resolveTarget_own_args (mergeConfig c1 c2) name (merge t1 t2) k1 v1 hmt hndm
      hargs1 rt hrt
  · exact resolveTarget_own_args (mergeConfig c1 c2) name (merge t1 t2) k2 v2 hmt hndm
      hargs2 rt hrt

/-- First input file of the cross-file witness: `webapp` declares
`args.buildno = "1"`. -/
def c6File1 : Config :=
  { Target := [("db".toList, { Context := some (".".toList) }),
               ("webapp".toList,
                { Dockerfile := some ("Dockerfile.webapp".toList),
                  Args := [("buildno".toList, "1".toList)] })] }

/-- Second input file of the cross-file witness: `webapp` redeclares only
`args.buildno2 = "12"`. -/
def c6File2 : Config :=
  { Target := [("newservice".toList, { Context := some (".".toList) }),
               ("webapp".toList, { Args := [("buildno2".toList, "12".toList)] })] }

/-- The `webapp` target resolved against the merged witness config. -/
def c6Resolved : Target :=
  (((ResolveTarget (mergeConfig c6File1 c6File2) ("webapp".toList) []).toOption).getD
    none).getD emptyTarget

/-- Witness for C6: both argument keys are present in the resolved merged
`webapp`. -/
theorem cross_file_merge_unions_args_witness :
    ResolveTarget (mergeConfig c6File1 c6File2) ("webapp".toList) [] =
      .ok (some c6Resolved) ∧
    lookupA c6Resolved.Args ("buildno".toList) = some ("1".toList) ∧
    lookupA c6Resolved.Args ("buildno2".toList) = some ("12".toList) := by
  have hthm := cross_file_merge_unions_args c6File1 c6File2 ("webapp".toList)
    (((lookupA c6File1.Target ("webapp".toList)).getD emptyTarget))
    (((lookupA c6File2.Target ("webapp".toList)).getD emptyTarget))
    ("buildno".toList) ("1".toList) ("buildno2".toList) ("12".toList)
    (by decide) (by decide) (by decide) (by decide) (by decide) (by decide)
    (by decide) (by decide)
  have hres : ResolveTarget (mergeConfig c6File1 c6File2) ("webapp".toList) [] =
      .ok (some c6Resolved) := by decide
  exact ⟨hres, (hthm.2.2.2 c6Resolved hres).1, (hthm.2.2.2 c6Resolved hres).2⟩


/-! ## Fallback defaults applied exactly once (claim C4) -/

/-- The inherits fold preserves any field-emptiness predicate that
`merge` preserves. -/
theorem foldInh_unset {β : Type} (p : Target → β) (e : β)
    (hmerge : ∀ a b, p a = e → p b = e → p (merge a b) = e)
    (rec : Str → List Str → Except Err (Option Target × List Str))
    (hrec : ∀ n vis tr vis', rec n vis = .ok (some tr, vis') → p tr = e) :
    ∀ (ns : List Str) (tt : Target) (vis : List Str) (tt' : Target) (vis' : List Str),
    p tt = e → foldInh rec ns tt vis = .ok (tt', vis') → p tt' = e := by
  intro ns
  induction ns with
  | nil =>
    intro tt vis tt' vis' htt h
    rw [foldInh] at h
    simp only [Except.ok.injEq, Prod.mk.injEq] at h
    rw [← h.1]
    exact htt
  | cons n ns ih =>
    intro tt vis tt' vis' htt h
    rw [foldInh] at h
    rcases hr : rec n vis with er | ⟨_ | tr, vis1⟩ <;> rw [hr] at h <;> dsimp only at h
    · exact Except.noConfusion h
    · exact ih tt vis1 tt' vis' htt h
    · exact ih (merge tt tr) vis1 tt' vis' (hmerge tt tr htt (hrec n vis tr vis1 hr)) h

/-- Any field-emptiness predicate preserved by `merge`, `normalize` and
clearing `Inherits` holds of every (intermediate or top-level) `targetF`
result, provided it holds of every stored target and every override-table
entry.  In particular no fallback default is injected below the top
level. -/
theorem targetF_unset {β : Type} (p : Target → β) (e : β)
    (hempty : p emptyTarget = e)
    (hdef : p defaultTarget = e)
    (hmerge : ∀ a b, p a = e → p b = e → p (merge a b) = e)
    (hnorm : ∀ t, p t = e → p (normalize t) = e)
    (hclear : ∀ t, p t = e → p { t with Inherits := ([] : List Str) } = e)
    (c : Config) (o : List (Str × Target))
    (hc : ∀ q ∈ c.Target, p q.2 = e)
    (ho : ∀ q ∈ o, p q.2 = e) :
    ∀ (fuel : Nat) (n : Str) (vis : List Str) (tt : Target) (vis' : List Str),
    targetF c o fuel n vis = .ok (some tt, vis') → p tt = e := by
  intro fuel
  induction fuel with
  | zero =>
    intro n vis tt vis' h
    rw [targetF] at h
    exact Except.noConfusion h
  | succ fuel ih =>
    intro n vis tt vis' h
    rw [targetF] at h
    split_ifs at h
    · simp at h
    · split at h
      · exact Except.noConfusion h
      next t hlookT =>
        split at h
        · exact Except.noConfusion h
        next tt0 vis2 hfold =>
          simp only [Except.ok.injEq, Prod.mk.injEq, Option.some.injEq] at h
          obtain ⟨h1, _⟩ := h
          have htt0 : p tt0 = e := by
            refine foldInh_unset p e hmerge (targetF c o fuel) ?_ t.Inherits emptyTarget
              _ tt0 vis2 hempty hfold
            intro n1 v1 tr v1' hh
            exact ih n1 v1 tr v1' hh
          have hown : p { t with Inherits := ([] : List Str) } = e := by
            refine hclear t ?_
            obtain ⟨k', hk⟩ := lookupA_mem _ _ _ hlookT
            exact hc (k', t) hk
          have hov : p ((lookupA o n).getD emptyTarget) = e := by
            cases hl : lookupA o n with
            | none => exact hempty
            | some tb =>
              simp only [Option.getD_some]
              obtain ⟨k', hk⟩ := lookupA_mem _ _ _ hl
              exact ho (k', tb) hk
          rw [← h1]
          exact hnorm _ (hmerge _ _ (hmerge _ _ (hmerge _ _ hdef htt0) hown) hov)

/-- The top-level `targetF` call of `ResolveTarget` never hits the
visited-set truncation (its visited set starts empty), so it never
returns `none`. -/
theorem targetF_top_not_none (c : Config) (o : List (Str × Target)) (n : Str)
    (vis' : List Str) : targetF c o (fuelBound c) n [] ≠ .ok (none, vis') := by
  intro h
  rw [fuelBound, targetF] at h
  rw [if_neg (by simp : ¬ n ∈ ([] : List Str))] at h
  split at h
  · exact Except.noConfusion h
  · split at h
    · exact Except.noConfusion h
    · simp at h

theorem fillDefaults_fields (tt : Target) :
    (tt.Context = none → (fillDefaults tt).Context = some (".".toList)) ∧
    (tt.Context ≠ none → (fillDefaults tt).Context = tt.Context) ∧
    (tt.Dockerfile = none → (fillDefaults tt).Dockerfile = some ("Dockerfile".toList)) ∧
    (tt.Dockerfile ≠ none → (fillDefaults tt).Dockerfile = tt.Dockerfile) ∧
    (fillDefaults tt).Inherits = tt.Inherits ∧
    (fillDefaults tt).Args = tt.Args ∧
    (fillDefaults tt).Labels = tt.Labels ∧
    (fillDefaults tt).Tags = tt.Tags ∧
    (fillDefaults tt).CacheFrom = tt.CacheFrom ∧
    (fillDefaults tt).CacheTo = tt.CacheTo ∧
    (fillDefaults tt).Target = tt.Target ∧
    (fillDefaults tt).Secrets = tt.Secrets ∧
    (fillDefaults tt).SSH = tt.SSH ∧
    (fillDefaults tt).Platforms = tt.Platforms ∧
    (fillDefaults tt).Outputs = tt.Outputs ∧
    (fillDefaults tt).Pull = tt.Pull ∧
    (fillDefaults tt).NoCache = tt.NoCache := by
  unfold fillDefaults
  by_cases h1 : tt.Context = none <;> by_cases h2 : tt.Dockerfile = none <;>
    simp [h1, h2]


/-- C4: fallback defaults are applied exactly once, at the top level of
resolution.  (1) A successful `ResolveTarget` is exactly `fillDefaults` of
the raw recursive result (which is never `none` at the top level);
(2) `fillDefaults` sets context `"."`/dockerfile `"Dockerfile"` only when
unset and leaves every other field untouched; (3)–(4) intermediate
`targetF` results receive no context/dockerfile fallback: if the chain
never sets the field it is still unset there; (5) every other field of a
resolved target remains unset/empty when never specified in the config or
the override table. -/
theorem fallback_defaults_applied_once_at_top :
    (∀ (c : Config) (o : List (Str × Target)) (n : Str) (r : Option Target),
      ResolveTarget c n o = .ok r →
      ∃ tt vis, targetF c o (fuelBound c) n [] = .ok (some tt, vis) ∧
        r = some (fillDefaults tt)) ∧
    (∀ tt : Target,
      (tt.Context = none → (fillDefaults tt).Context = some (".".toList)) ∧
      (tt.Context ≠ none → (fillDefaults tt).Context = tt.Context) ∧
      (tt.Dockerfile = none → (fillDefaults tt).Dockerfile = some ("Dockerfile".toList)) ∧
      (tt.Dockerfile ≠ none → (fillDefaults tt).Dockerfile = tt.Dockerfile) ∧
      (fillDefaults tt).Tags = tt.Tags ∧ (fillDefaults tt).Args = tt.Args ∧
      (fillDefaults tt).Secrets = tt.Secrets ∧ (fillDefaults tt).Outputs = tt.Outputs) ∧
    (∀ (c : Config) (o : List (Str × Target)),
      (∀ q ∈ c.Target, q.2.Context = none) → (∀ q ∈ o, q.2.Context = none) →
      ∀ (fuel : Nat) (n : Str) (vis : List Str) (tt : Target) (vis' : List Str),
      targetF c o fuel n vis = .ok (some tt, vis') → tt.Context = none) ∧
    (∀ (c : Config) (o : List (Str × Target)),
      (∀ q ∈ c.Target, q.2.Dockerfile = none) → (∀ q ∈ o, q.2.Dockerfile = none) →
      ∀ (fuel : Nat) (n : Str) (vis : List Str) (tt : Target) (vis' : List Str),
      targetF c o fuel n vis = .ok (some tt, vis') → tt.Dockerfile = none) ∧
    (∀ (c : Config) (o : List (Str × Target)) (n : Str) (rt : Target),
      ResolveTarget c n o = .ok (some rt) →
      ((∀ q ∈ c.Target, q.2.Tags = none) → (∀ q ∈ o, q.2.Tags = none) →
        rt.Tags = none) ∧
      ((∀ q ∈ c.Target, q.2.CacheFrom = none) → (∀ q ∈ o, q.2.CacheFrom = none) →
        rt.CacheFrom = none) ∧
      ((∀ q ∈ c.Target, q.2.CacheTo = none) → (∀ q ∈ o, q.2.CacheTo = none) →
        rt.CacheTo = none) ∧
      ((∀ q ∈ c.Target, q.2.Target = none) → (∀ q ∈ o, q.2.Target = none) →
        rt.Target = none) ∧
      ((∀ q ∈ c.Target, q.2.Secrets = none) → (∀ q ∈ o, q.2.Secrets = none) →
        rt.Secrets = none) ∧
      ((∀ q ∈ c.Target, q.2.SSH = none) → (∀ q ∈ o, q.2.SSH = none) →
        rt.SSH = none) ∧
      ((∀ q ∈ c.Target, q.2.Platforms = none) → (∀ q ∈ o, q.2.Platforms = none) →
        rt.Platforms = none) ∧
      ((∀ q ∈ c.Target, q.2.Outputs = none) → (∀ q ∈ o, q.2.Outputs = none) →
        rt.Outputs = none) ∧
      ((∀ q ∈ c.Target, q.2.Args = ([] : List (Str × Str))) →
        (∀ q ∈ o, q.2.Args = ([] : List (Str × Str))) → rt.Args = []) ∧
      ((∀ q ∈ c.Target, q.2.Labels = ([] : List (Str × Str))) →
        (∀ q ∈ o, q.2.Labels = ([] : List (Str × Str))) → rt.Labels = [])) := by
  have hA : ∀ (c : Config) (o : List (Str × Target)) (n : Str) (r : Option Target),
      ResolveTarget c n o = .ok r →
      ∃ tt vis, targetF c o (fuelBound c) n [] = .ok (some tt, vis) ∧
        r = some (fillDefaults tt) := by
    intro c o n r h
    unfold ResolveTarget at h
    cases ht : targetF c o (fuelBound c) n [] with
    | error e => rw [ht] at h; exact Except.noConfusion h
    | ok p =>
      obtain ⟨rr, vis⟩ := p
      cases rr with
      | none => exact absurd ht (targetF_top_not_none c o n vis)
      | some tt =>
        rw [ht] at h
        dsimp only at h
        injection h with h
        exact ⟨tt, vis, rfl, h.symm⟩
  refine ⟨hA, ?_, ?_, ?_, ?_⟩
  · intro tt
    have hff := fillDefaults_fields tt
    exact ⟨hff.1, hff.2.1, hff.2.2.1, hff.2.2.2.1, hff.2.2.2.2.2.2.2.1,
      hff.2.2.2.2.2.1, hff.2.2.2.2.2.2.2.2.2.2.2.1, hff.2.2.2.2.2.2.2.2.2.2.2.2.2.2.1⟩
  · intro c o hc ho
    exact targetF_unset (fun t => t.Context) none rfl rfl
      (fun a b ha hb => by simp [merge, ha, hb]) (fun t h => h) (fun t h => h) c o hc ho
  · intro c o hc ho
    exact targetF_unset (fun t => t.Dockerfile) none rfl rfl
      (fun a b ha hb => by simp [merge, ha, hb]) (fun t h => h) (fun t h => h) c o hc ho
  · intro c o n rt h
    obtain ⟨tt, vis, htF, hr⟩ := hA c o n (some rt) h
    injection hr with hr
    have hff := fillDefaults_fields tt
    obtain ⟨_, _, _, _, hInh, hArgs, hLab, hTags, hCF, hCT, hTgt, hSec, hSSH, hPlat,
      hOut, hPull, hNC⟩ := hff
    subst hr
    refine ⟨?_, ?_, ?_, ?_, ?_, ?_, ?_, ?_, ?_, ?_⟩ <;> intro hc ho
    · rw [hTags]
      exact targetF_unset (fun t => t.Tags) none rfl rfl
        (fun a b ha hb => by simp [merge, ha, hb])
        (fun t hx => by simp [normalize, hx]) (fun t hx => hx) c o hc ho _ n [] tt vis htF
    · rw [hCF]
      exact targetF_unset (fun t => t.CacheFrom) none rfl rfl
        (fun a b ha hb => by simp [merge, goAppend, ha, hb])
        (fun t hx => by simp [normalize, hx]) (fun t hx => hx) c o hc ho _ n [] tt vis htF
    · rw [hCT]
      exact targetF_unset (fun t => t.CacheTo) none rfl rfl
        (fun a b ha hb => by simp [merge, ha, hb])
        (fun t hx => by simp [normalize, hx]) (fun t hx => hx) c o hc ho _ n [] tt vis htF
    · rw [hTgt]
      exact targetF_unset (fun t => t.Target) none rfl rfl
        (fun a b ha hb => by simp [merge, ha, hb])
        (fun t hx => hx) (fun t hx => hx) c o hc ho _ n [] tt vis htF
    · rw [hSec]
      exact targetF_unset (fun t => t.Secrets) none rfl rfl
        (fun a b ha hb => by simp [merge, goAppend, ha, hb])
        (fun t hx => by simp [normalize, hx]) (fun t hx => hx) c o hc ho _ n [] tt vis htF
    · rw [hSSH]
      exact targetF_unset (fun t => t.SSH) none rfl rfl
        (fun a b ha hb => by simp [merge, goAppend, ha, hb])
        (fun t hx => by simp [normalize, hx]) (fun t hx => hx) c o hc ho _ n [] tt vis htF
    · rw [hPlat]
      exact targetF_unset (fun t => t.Platforms) none rfl rfl
        (fun a b ha hb => by simp [merge, ha, hb])
        (fun t hx => by simp [normalize, hx]) (fun t hx => hx) c o hc ho _ n [] tt vis htF
    · rw [hOut]
      exact targetF_unset (fun t => t.Outputs) none rfl rfl
        (fun a b ha hb => by simp [merge, ha, hb])
        (fun t hx => by simp [normalize, hx]) (fun t hx => hx) c o hc ho _ n [] tt vis htF
    · rw [hArgs]
      exact targetF_unset (fun t => t.Args) [] rfl rfl
        (fun a b ha hb => by simp [merge, unionA, ha, hb])
        (fun t hx => hx) (fun t hx => hx) c o hc ho _ n [] tt vis htF
    · rw [hLab]
      exact targetF_unset (fun t => t.Labels) [] rfl rfl
        (fun a b ha hb => by simp [merge, unionA, ha, hb])
        (fun t hx => hx) (fun t hx => hx) c o hc ho _ n [] tt vis htF

/-- Witness for C4: resolving `webapp` in the test configuration with no
overrides receives the fallback context `"."` (its dockerfile is its own
declared one), and its never-specified fields stay empty. -/
theorem fallback_defaults_applied_once_at_top_witness :
    (∃ tt vis, targetF cfgWeb [] (fuelBound cfgWeb) ("webapp".toList) [] =
        .ok (some tt, vis) ∧
      (((ResolveTarget cfgWeb ("webapp".toList) []).toOption.getD none) =
        some (fillDefaults tt))) ∧
    (((ResolveTarget cfgWeb ("webapp".toList) []).toOption.getD none).getD
      emptyTarget).Tags = none := by
  have hres : ResolveTarget cfgWeb ("webapp".toList) [] =
      .ok ((ResolveTarget cfgWeb ("webapp".toList) []).toOption.getD none) := by decide
  constructor
  · exact fallback_defaults_applied_once_at_top.1 cfgWeb [] ("webapp".toList) _ hres
  · have h2 := fallback_defaults_applied_once_at_top.2.2.2.2 cfgWeb [] ("webapp".toList)
      ((((ResolveTarget cfgWeb ("webapp".toList) []).toOption.getD none)).getD emptyTarget)
      (by decide)
    exact h2.1 (by decide) (by decide)


/-! ## Termination of target resolution (claim C7) -/

theorem mem_firstOccurrences_of_mem (x : Str) (l : List Str) (h : x ∈ l) :
    x ∈ firstOccurrences l := by
  induction l using firstOccurrences.induct with
  | case1 => simp at h
  | case2 y ys ih =>
    rw [firstOccurrences]
    by_cases hxy : x = y
    · rw [hxy]; exact List.mem_cons_self _ _
    · refine List.mem_cons_of_mem _ (ih ?_)
      rcases List.mem_cons.mp h with h1 | h1
      · exact absurd h1 hxy
      · exact List.mem_filter.mpr ⟨h1, by simpa using hxy⟩

theorem mem_removeDupes (x : Str) (l : List Str) : x ∈ removeDupes l ↔ x ∈ l := by
  rw [removeDupes_eq_firstOccurrences]
  exact ⟨mem_firstOccurrences _ l, mem_firstOccurrences_of_mem x l⟩

theorem lookupA_some_key_mem {α : Type} (m : List (Str × α)) (n : Str) (v : α)
    (h : lookupA m n = some v) : n ∈ m.map Prod.fst := by
  induction m with
  | nil => simp [lookupA] at h
  | cons q rest ih =>
    rw [lookupA] at h
    split at h
    next hq => rw [List.map_cons, ← hq]; exact List.mem_cons_self _ _
    next hq => exact List.mem_cons_of_mem _ (ih h)

/-- The number of (deduplicated) stored target names not yet visited: the
measure that shrinks at every recursive step of `targetF`. -/
def remMeasure (c : Config) (vis : List Str) : Nat :=
  ((removeDupes (c.Target.map Prod.fst)).filter (fun k => ¬ k ∈ vis)).length

theorem filter_not_mem_mono (l : List Str) (vis vis' : List Str)
    (h : ∀ x, x ∈ vis → x ∈ vis') :
    (l.filter (fun k => ¬ k ∈ vis')).length ≤ (l.filter (fun k => ¬ k ∈ vis)).length := by
  induction l with
  | nil => simp
  | cons a l ih =>
    rw [List.filter_cons, List.filter_cons]
    by_cases ha : a ∈ vis
    · rw [if_neg (by simp [ha] : ¬(decide (¬ a ∈ vis) = true)),
        if_neg (by simp [h a ha] : ¬(decide (¬ a ∈ vis') = true))]
      exact ih
    · by_cases ha2 : a ∈ vis'
      · rw [if_pos (by simp [ha] : decide (¬ a ∈ vis) = true),
          if_neg (by simp [ha2] : ¬(decide (¬ a ∈ vis') = true)), List.length_cons]
        omega
      · rw [if_pos (by simp [ha] : decide (¬ a ∈ vis) = true),
          if_pos (by simp [ha2] : decide (¬ a ∈ vis') = true), List.length_cons,
          List.length_cons]
        omega

theorem remMeasure_mono (c : Config) (vis vis' : List Str)
    (h : ∀ x, x ∈ vis → x ∈ vis') : remMeasure c vis' ≤ remMeasure c vis :=
  filter_not_mem_mono _ vis vis' h

theorem filter_not_mem_cons_lt (l : List Str) (n : Str) (vis : List Str)
    (hn : n ∈ l) (hnv : n ∉ vis) :
    (l.filter (fun k => ¬ k ∈ (n :: vis))).length <
      (l.filter (fun k => ¬ k ∈ vis)).length := by
  induction l with
  | nil => simp at hn
  | cons a l ih =>
    rw [List.filter_cons, List.filter_cons]
    have hmono : (l.filter (fun k => ¬ k ∈ (n :: vis))).length ≤
        (l.filter (fun k => ¬ k ∈ vis)).length :=
      filter_not_mem_mono l vis (n :: vis) (fun x hx => List.mem_cons_of_mem _ hx)
    by_cases han : a = n
    · subst han
      rw [if_neg (by simp : ¬(decide (¬ a ∈ (a :: vis)) = true)),
        if_pos (by simp [hnv] : decide (¬ a ∈ vis) = true), List.length_cons]
      omega
    · have hn' : n ∈ l := by
        rcases List.mem_cons.mp hn with h1 | h1
        · exact absurd h1.symm han
        · exact h1
      by_cases ha : a ∈ vis
      · rw [if_neg (by simp [ha] : ¬(decide (¬ a ∈ vis) = true)),
          if_neg (by simp [List.mem_cons_of_mem n ha] :
            ¬(decide (¬ a ∈ (n :: vis)) = true))]
        exact ih hn'
      · have ha2 : ¬ a ∈ n :: vis := by
          intro hmem
          rcases List.mem_cons.mp hmem with h1 | h1
          · exact han h1
          · exact ha h1
        rw [if_pos (by simp [ha] : decide (¬ a ∈ vis) = true),
          if_pos (by simp [ha2] : decide (¬ a ∈ (n :: vis)) = true), List.length_cons,
          List.length_cons]
        have := ih hn'
        omega

theorem remMeasure_cons_lt (c : Config) (n : Str) (vis : List Str)
    (hn : n ∈ c.Target.map Prod.fst) (hnv : n ∉ vis) :
    remMeasure c (n :: vis) < remMeasure c vis :=
  filter_not_mem_cons_lt _ n vis ((mem_removeDupes n _).mpr hn) hnv

/-- The visited set only grows through `foldInh` (given it only grows
through the recursive resolver). -/
theorem foldInh_visited_grows
    (rec : Str → List Str → Except Err (Option Target × List Str))
    (hrec : ∀ n vis r vis', rec n vis = .ok (r, vis') → ∀ x ∈ vis, x ∈ vis') :
    ∀ (ns : List Str) (tt : Target) (vis : List Str) (tt' : Target) (vis' : List Str),
    foldInh rec ns tt vis = .ok (tt', vis') → ∀ x ∈ vis, x ∈ vis' := by
  intro ns
  induction ns with
  | nil =>
    intro tt vis tt' vis' h x hx
    rw [foldInh] at h
    simp only [Except.ok.injEq, Prod.mk.injEq] at h
    rw [← h.2]
    exact hx
  | cons n ns ih =>
    intro tt vis tt' vis' h x hx
    rw [foldInh] at h
    rcases hr : rec n vis with er | ⟨_ | tr, vis1⟩ <;> rw [hr] at h <;> dsimp only at h
    · exact Except.noConfusion h
    · exact ih tt vis1 tt' vis' h x (hrec n vis none vis1 hr x hx)
    · exact ih (merge tt tr) vis1 tt' vis' h x (hrec n vis (some tr) vis1 hr x hx)

/-- The visited set only grows through `targetF`. -/
theorem targetF_visited_grows (c : Config) (o : List (Str × Target)) :
    ∀ (fuel : Nat) (n : Str) (vis : List Str) (r : Option Target) (vis' : List Str),
    targetF c o fuel n vis = .ok (r, vis') → ∀ x ∈ vis, x ∈ vis' := by
  intro fuel
  induction fuel with
  | zero =>
    intro n vis r vis' h
    rw [targetF] at h
    exact Except.noConfusion h
  | succ fuel ih =>
    intro n vis r vis' h x hx
    rw [targetF] at h
    split_ifs at h
    · simp only [Except.ok.injEq, Prod.mk.injEq] at h
      rw [← h.2]
      exact hx
    · split at h
      · exact Except.noConfusion h
      next t hlookT =>
        split at h
        · exact Except.noConfusion h
        next tt0 vis2 hfold =>
          simp only [Except.ok.injEq, Prod.mk.injEq] at h
          rw [← h.2]
          refine foldInh_visited_grows (targetF c o fuel) ?_ t.Inherits emptyTarget
            (n :: vis) tt0 vis2 hfold x (List.mem_cons_of_mem _ hx)
          intro n1 v1 r1 v1' hh
          exact ih n1 v1 r1 v1' hh


theorem foldInh_fuel (c : Config) (o : List (Str × Target)) (g : Nat)
    (IH : ∀ (m : Str) (vis : List Str), remMeasure c vis < g →
      targetF c o (g + 1) m vis = targetF c o g m vis) :
    ∀ (ns : List Str) (tt : Target) (vis : List Str), remMeasure c vis < g →
    foldInh (targetF c o (g + 1)) ns tt vis = foldInh (targetF c o g) ns tt vis := by
  intro ns
  induction ns with
  | nil => intro tt vis hm; rw [foldInh, foldInh]
  | cons m ns ih =>
    intro tt vis hm
    rw [foldInh, foldInh, IH m vis hm]
    rcases hr : targetF c o g m vis with er | ⟨_ | tr, vis1⟩ <;> dsimp only
    · have hgrow := targetF_visited_grows c o g m vis none vis1 hr
      exact ih tt vis1 (Nat.lt_of_le_of_lt (remMeasure_mono c vis vis1 hgrow) hm)
    · have hgrow := targetF_visited_grows c o g m vis (some tr) vis1 hr
      exact ih (merge tt tr) vis1
        (Nat.lt_of_le_of_lt (remMeasure_mono c vis vis1 hgrow) hm)

theorem targetF_fuel_succ (c : Config) (o : List (Str × Target)) :
    ∀ (f : Nat) (n : Str) (vis : List Str), remMeasure c vis < f →
    targetF c o (f + 1) n vis = targetF c o f n vis := by
  intro f
  induction f using Nat.strong_induction_on with
  | _ f IH =>
    intro n vis hm
    match f, hm with
    | g + 1, hm =>
      rw [targetF]
      conv_rhs => rw [targetF]
      by_cases hv : n ∈ vis
      · rw [if_pos hv, if_pos hv]
      · rw [if_neg hv, if_neg hv]
        cases hlook : lookupA c.Target n with
        | none => rfl
        | some t =>
          dsimp only
          have hmem : n ∈ c.Target.map Prod.fst := lookupA_some_key_mem _ n t hlook
          have hlt : remMeasure c (n :: vis) < g :=
            Nat.lt_of_lt_of_le (remMeasure_cons_lt c n vis hmem hv)
              (Nat.lt_succ_iff.mp hm)
          have hfold := foldInh_fuel c o g
            (fun m vis1 hm1 => IH g (Nat.lt_succ_self g) m vis1 hm1)
            t.Inherits emptyTarget (n :: vis) hlt
          rw [hfold]

theorem targetF_fuel_stable (c : Config) (o : List (Str × Target)) :
    ∀ (f : Nat) (n : Str) (vis : List Str), remMeasure c vis < f →
    targetF c o f n vis = targetF c o (remMeasure c vis + 1) n vis := by
  intro f
  induction f with
  | zero => intro n vis hm; exact absurd hm (Nat.not_lt_zero _)
  | succ f ih =>
    intro n vis hm
    by_cases hf : remMeasure c vis < f
    · rw [targetF_fuel_succ c o f n vis hf]
      exact ih n vis hf
    · have hfe : f = remMeasure c vis := by omega
      rw [hfe]

theorem foldInh_no_fuel_error (c : Config) (o : List (Str × Target)) (g : Nat)
    (hrec : ∀ (m : Str) (vis1 : List Str), remMeasure c vis1 < g →
      targetF c o g m vis1 ≠ .error .outOfFuel) :
    ∀ (ns : List Str) (tt : Target) (vis : List Str), remMeasure c vis < g →
    foldInh (targetF c o g) ns tt vis ≠ .error .outOfFuel := by
  intro ns
  induction ns with
  | nil =>
    intro tt vis hm h
    rw [foldInh] at h
    exact Except.noConfusion h
  | cons m ns ih =>
    intro tt vis hm h
    rw [foldInh] at h
    rcases hr : targetF c o g m vis with er | ⟨_ | tr, vis1⟩ <;> rw [hr] at h <;>
      dsimp only at h
    · injection h with h
      exact hrec m vis hm (h ▸ hr)
    · have hgrow := targetF_visited_grows c o g m vis none vis1 hr
      exact ih tt vis1 (Nat.lt_of_le_of_lt (remMeasure_mono c vis vis1 hgrow) hm) h
    · have hgrow := targetF_visited_grows c o g m vis (some tr) vis1 hr
      exact ih (merge tt tr) vis1
        (Nat.lt_of_le_of_lt (remMeasure_mono c vis vis1 hgrow) hm) h

theorem targetF_no_fuel_error (c : Config) (o : List (Str × Target)) :
    ∀ (f : Nat) (n : Str) (vis : List Str), remMeasure c vis < f →
    targetF c o f n vis ≠ .error .outOfFuel := by
  intro f
  induction f using Nat.strong_induction_on with
  | _ f IH =>
    intro n vis hm h
    match f, hm, h with
    | g + 1, hm, h =>
      rw [targetF] at h
      by_cases hv : n ∈ vis
      · rw [if_pos hv] at h
        exact Except.noConfusion h
      · rw [if_neg hv] at h
        split at h
        · injection h with h
          exact Err.noConfusion h
        next t hlook =>
          split at h
          next er hfold =>
            have hmem : n ∈ c.Target.map Prod.fst := lookupA_some_key_mem _ n t hlook
            have hlt : remMeasure c (n :: vis) < g :=
              Nat.lt_of_lt_of_le (remMeasure_cons_lt c n vis hmem hv)
                (Nat.lt_succ_iff.mp hm)
            injection h with h
            exact foldInh_no_fuel_error c o g
              (fun m vis1 hm1 => IH g (Nat.lt_succ_self g) m vis1 hm1)
              t.Inherits emptyTarget (n :: vis) hlt (h ▸ hfold)
          next tt0 vis2 hfold => exact Except.noConfusion h

theorem removeDupes_length_le (l : List Str) : (removeDupes l).length ≤ l.length := by
  rw [removeDupes_eq_firstOccurrences]
  induction l using firstOccurrences.induct with
  | case1 => rw [firstOccurrences]
  | case2 x xs ih =>
    rw [firstOccurrences, List.length_cons]
    have hf : (xs.filter (fun x1 => x1 ≠ x)).length ≤ xs.length :=
      List.length_filter_le _ xs
    simp only [List.length_cons]
    omega

theorem remMeasure_le_fuelBound (c : Config) (vis : List Str) :
    remMeasure c vis < fuelBound c := by
  rw [remMeasure, fuelBound]
  have h1 : ((removeDupes (c.Target.map Prod.fst)).filter
      (fun k => ¬ k ∈ vis)).length ≤ (removeDupes (c.Target.map Prod.fst)).length :=
    List.length_filter_le _ _
  have h2 := removeDupes_length_le (c.Target.map Prod.fst)
  have h3 : (c.Target.map Prod.fst).length = c.Target.length := List.length_map _ _
  omega

/-- C7: target resolution terminates on every input, including cyclic
inheritance graphs.  (1) A revisited name is truncated to an empty result
without recursing; (2) the recursion stabilizes: any two fuels above the
number of unvisited stored names give the same result, so the recursion
depth is finite even on cyclic configs; (3) consequently `ResolveTarget`,
run at the stable fuel bound, never exhausts its fuel — it returns a
result or a configuration error. -/
theorem target_resolution_terminates :
    (∀ (c : Config) (o : List (Str × Target)) (f : Nat) (n : Str) (vis : List Str),
      n ∈ vis → targetF c o (f + 1) n vis = .ok (none, vis)) ∧
    (∀ (c : Config) (o : List (Str × Target)) (n : Str) (vis : List Str) (f1 f2 : Nat),
      remMeasure c vis < f1 → remMeasure c vis < f2 →
      targetF c o f1 n vis = targetF c o f2 n vis) ∧
    (∀ (c : Config) (o : List (Str × Target)) (n : Str),
      ResolveTarget c n o ≠ .error .outOfFuel) := by
  refine ⟨?_, ?_, ?_⟩
  · intro c o f n vis hv
    rw [targetF, if_pos hv]
  · intro c o n vis f1 f2 h1 h2
    rw [targetF_fuel_stable c o f1 n vis h1, targetF_fuel_stable c o f2 n vis h2]
  · intro c o n h
    unfold ResolveTarget at h
    cases ht : targetF c o (fuelBound c) n [] with
    | error e =>
      rw [ht] at h
      injection h with h
      exact targetF_no_fuel_error c o (fuelBound c) n []
        (remMeasure_le_fuelBound c []) (h ▸ ht)
    | ok p =>
      obtain ⟨r, vis⟩ := p
      cases r <;> rw [ht] at h <;> dsimp only at h <;> exact Except.noConfusion h

/-- A self-inheriting target, for the C7 witness. -/
def cfgCyc : Config :=
  { Target := [("a".toList, { Inherits := ["a".toList], Tags := some ["t1".toList] })] }

/-- Witness for C7 at a cyclic config: a target that inherits itself
resolves (the truncation fires, fuels above the measure agree, and no
fuel exhaustion is reported); concretely the resolution succeeds. -/
theorem target_resolution_terminates_witness :
    targetF cfgCyc [] 1 ("a".toList) ["a".toList] = .ok (none, ["a".toList]) ∧
    targetF cfgCyc [] 5 ("a".toList) [] = targetF cfgCyc [] 2 ("a".toList) [] ∧
    ResolveTarget cfgCyc ("a".toList) [] ≠ .error .outOfFuel ∧
    (ResolveTarget cfgCyc ("a".toList) []).isOk = true := by
  refine ⟨?_, ?_, ?_, by decide⟩
  · exact target_resolution_terminates.1 cfgCyc [] 0 ("a".toList) ["a".toList]
      (by decide)
  · exact target_resolution_terminates.2.1 cfgCyc [] ("a".toList) [] 5 2 (by decide)
      (by decide)
  · exact target_resolution_terminates.2.2 cfgCyc [] ("a".toList)

/-! ## C5: glob expansion -/

theorem parseRanges_rangesSyntax (r : Char) (chunk : List Char) (acc : Bool) (n : Nat)
    (rest : List Char) (b : Bool) (h : parseRanges r chunk acc n = .ok (rest, b)) :
    rangesSyntax chunk n = some rest := by
  induction chunk, acc, n using parseRanges.induct r with
  | case1 chunk acc n hn =>
    rw [parseRanges] at h
    simp only [if_pos hn, Except.ok.injEq, Prod.mk.injEq] at h
    rw [rangesSyntax, if_pos hn, h.1]
  | case2 chunk acc n hn e hG =>
    rw [parseRanges] at h
    rw [if_neg hn, hG] at h
    simp at h
  | case3 chunk acc n hn lo chunk1 hG hD e hG2 =>
    rw [parseRanges] at h
    rw [if_neg hn, hG] at h
    simp only [if_pos hD] at h
    rw [hG2] at h
    simp at h
  | case4 chunk acc n hn lo chunk1 hG hD hi chunk3 hG2 hlt ih =>
    rw [parseRanges] at h
    rw [if_neg hn, hG] at h
    simp only [if_pos hD] at h
    rw [hG2] at h
    simp only [dif_pos hlt] at h
    rw [rangesSyntax, if_neg hn, hG]
    simp only [if_pos hD]
    rw [hG2]
    simp only [dif_pos hlt]
    exact ih h
  | case5 chunk acc n hn lo chunk1 hG hD hi chunk3 hG2 hlt =>
    rw [parseRanges] at h
    rw [if_neg hn, hG] at h
    simp only [if_pos hD] at h
    rw [hG2] at h
    simp only [dif_neg hlt] at h
    simp at h
  | case6 chunk acc n hn lo chunk1 hG hD hlt ih =>
    rw [parseRanges] at h
    rw [if_neg hn, hG] at h
    simp only [if_neg hD] at h
    simp only [dif_pos hlt] at h
    rw [rangesSyntax, if_neg hn, hG]
    simp only [if_neg hD]
    simp only [dif_pos hlt]
    exact ih h
  | case7 chunk acc n hn lo chunk1 hG hD hlt =>
    rw [parseRanges] at h
    rw [if_neg hn, hG] at h
    simp only [if_neg hD] at h
    simp only [dif_neg hlt] at h
    simp at h

theorem rangesSyntax_length_le (chunk : List Char) (n : Nat) (rest : List Char)
    (h : rangesSyntax chunk n = some rest) : rest.length ≤ chunk.length := by
  induction chunk, n using rangesSyntax.induct with
  | case1 chunk n hn =>
    rw [rangesSyntax, if_pos hn] at h
    injection h with h
    subst h
    rw [List.length_tail]
    omega
  | case2 chunk n hn e hG =>
    rw [rangesSyntax, if_neg hn, hG] at h
    simp at h
  | case3 chunk n hn lo chunk1 hG hD e hG2 =>
    rw [rangesSyntax, if_neg hn, hG] at h
    simp only [if_pos hD] at h
    rw [hG2] at h
    simp at h
  | case4 chunk n hn lo chunk1 hG hD hi chunk3 hG2 hlt ih =>
    rw [rangesSyntax, if_neg hn, hG] at h
    simp only [if_pos hD] at h
    rw [hG2] at h
    simp only [dif_pos hlt] at h
    have := ih h
    omega
  | case5 chunk n hn lo chunk1 hG hD hi chunk3 hG2 hlt =>
    rw [rangesSyntax, if_neg hn, hG] at h
    simp only [if_pos hD] at h
    rw [hG2] at h
    simp only [dif_neg hlt] at h
    simp at h
  | case6 chunk n hn lo chunk1 hG hD hlt ih =>
    rw [rangesSyntax, if_neg hn, hG] at h
    simp only [if_neg hD] at h
    simp only [dif_pos hlt] at h
    have := ih h
    omega
  | case7 chunk n hn lo chunk1 hG hD hlt =>
    rw [rangesSyntax, if_neg hn, hG] at h
    simp only [if_neg hD] at h
    simp only [dif_neg hlt] at h
    simp at h

theorem chunkSyntaxOkF_cons (fuel : Nat) (c : Char) (chunk : List Char) :
    chunkSyntaxOkF (fuel + 1) (c :: chunk) =
      (if c = '[' then
        match rangesSyntax (if chunk.head? = some '^' then chunk.tail else chunk) 0 with
        | none => false
        | some rest => chunkSyntaxOkF fuel rest
      else if c = '?' then chunkSyntaxOkF fuel chunk
      else if c = '\\' then
        match chunk with
        | [] => false
        | _ :: chunk2 => chunkSyntaxOkF fuel chunk2
      else chunkSyntaxOkF fuel chunk) := rfl

theorem chunkSyntaxOkF_stable (fuel : Nat) :
    ∀ (fuel' : Nat) (chunk : List Char), chunk.length < fuel → chunk.length < fuel' →
    chunkSyntaxOkF fuel chunk = chunkSyntaxOkF fuel' chunk := by
  induction fuel with
  | zero => intro fuel' chunk h _; exact absurd h (by omega)
  | succ fuel ih =>
    intro fuel' chunk hf hf'
    cases fuel' with
    | zero => exact absurd hf' (by omega)
    | succ fuel' =>
      cases chunk with
      | nil => rfl
      | cons c ch =>
        simp only [List.length_cons] at hf hf'
        rw [chunkSyntaxOkF_cons, chunkSyntaxOkF_cons]
        by_cases h1 : c = '['
        · rw [if_pos h1, if_pos h1]
          cases hR : rangesSyntax (if ch.head? = some '^' then ch.tail else ch) 0 with
          | none => rfl
          | some rest =>
            have hle := rangesSyntax_length_le _ 0 rest hR
            have hox : (if ch.head? = some '^' then ch.tail else ch).length ≤
                ch.length := by
              split
              · rw [List.length_tail]; omega
              · omega
            exact ih fuel' rest (by omega) (by omega)
        · rw [if_neg h1, if_neg h1]
          by_cases h2 : c = '?'
          · rw [if_pos h2, if_pos h2]
            exact ih fuel' ch (by omega) (by omega)
          · rw [if_neg h2, if_neg h2]
            by_cases h3 : c = '\\'
            · rw [if_pos h3, if_pos h3]
              cases ch with
              | nil => rfl
              | cons d ch2 =>
                simp only [List.length_cons] at hf hf'
                exact ih fuel' ch2 (by omega) (by omega)
            · rw [if_neg h3, if_neg h3]
              exact ih fuel' ch (by omega) (by omega)

theorem matchChunk_cons (c : Char) (chunk : List Char) (sc : Char) (stail : List Char) :
    matchChunk (c :: chunk) (sc :: stail) =
      if c = '[' then
        match parseRanges sc (if chunk.head? = some '^' then chunk.tail else chunk) false 0 with
        | .error e => .error e
        | .ok (chunkRest, matched) =>
          if matched = (chunk.head? = some '^' : Bool) then .ok none
          else matchChunk chunkRest stail
      else if c = '?' then
        if sc = '/' then .ok none else matchChunk chunk stail
      else if c = '\\' then
        match chunk with
        | [] => .error ()
        | d :: chunk2 =>
          if d = sc then matchChunk chunk2 stail else .ok none
      else
        if c = sc then matchChunk chunk stail else .ok none := rfl

theorem matchChunk_ok_some_chunkOk (s : List Char) :
    ∀ chunk t, matchChunk chunk s = .ok (some t) → chunkSyntaxOk chunk = true := by
  induction s with
  | nil =>
    intro chunk t h
    cases chunk with
    | nil => rfl
    | cons c ch => simp [matchChunk] at h
  | cons sc stail ih =>
    intro chunk t h
    cases chunk with
    | nil => rfl
    | cons c ch =>
      rw [matchChunk_cons] at h
      show chunkSyntaxOkF (ch.length + 1 + 1) (c :: ch) = true
      rw [chunkSyntaxOkF_cons]
      by_cases h1 : c = '['
      · rw [if_pos h1] at h ⊢
        cases hP : parseRanges sc (if ch.head? = some '^' then ch.tail else ch) false 0 with
        | error e => rw [hP] at h; exact Except.noConfusion h
        | ok pr =>
          obtain ⟨chunkRest, matched⟩ := pr
          rw [hP] at h
          dsimp only at h
          by_cases hm : matched = (decide (ch.head? = some '^'))
          · rw [if_pos hm] at h; simp at h
          · rw [if_neg hm] at h
            have hrec := ih chunkRest t h
            have hR := parseRanges_rangesSyntax sc _ false 0 chunkRest matched hP
            have hlen : chunkRest.length < ch.length + 1 := by
              have h2 := rangesSyntax_length_le _ 0 chunkRest hR
              have h3 : (if ch.head? = some '^' then ch.tail else ch).length ≤
                  ch.length := by
                split
                · rw [List.length_tail]; omega
                · omega
              omega
            rw [hR]
            dsimp only
            rw [chunkSyntaxOkF_stable (ch.length + 1) (chunkRest.length + 1) chunkRest
              hlen (by omega)]
            exact hrec
      · rw [if_neg h1] at h ⊢
        by_cases h2 : c = '?'
        · rw [if_pos h2] at h ⊢
          by_cases hs : sc = '/'
          · rw [if_pos hs] at h; simp at h
          · rw [if_neg hs] at h
            exact ih ch t h
        · rw [if_neg h2] at h ⊢
          by_cases h3 : c = '\\'
          · rw [if_pos h3] at h ⊢
            cases ch with
            | nil => exact Except.noConfusion h
            | cons d ch2 =>
              dsimp only at h ⊢
              by_cases hd : d = sc
              · rw [if_pos hd] at h
                have hrec := ih ch2 t h
                rw [chunkSyntaxOkF_stable ((d :: ch2).length + 1) (ch2.length + 1) ch2
                  (by simp only [List.length_cons]; omega) (by omega)]
                exact hrec
              · rw [if_neg hd] at h; simp at h
          · rw [if_neg h3] at h ⊢
            by_cases hc : c = sc
            · rw [if_pos hc] at h
              exact ih ch t h
            · rw [if_neg hc] at h; simp at h

theorem matchLoop_eq (p n : List Char) (hp : p ≠ []) :
    matchLoop p n =
      (if (scanChunk p).1 ∧ (scanChunk p).2.1 = [] then .ok (!(n.contains '/'))
      else
        match matchChunk (scanChunk p).2.1 n with
        | .error e => .error e
        | .ok (some t) =>
          if t = [] ∨ (scanChunk p).2.2 ≠ [] then matchLoop (scanChunk p).2.2 t
          else if (scanChunk p).1 then
            match starLoop (scanChunk p).2.1 (scanChunk p).2.2 n with
            | .error e => .error e
            | .ok none => .ok false
            | .ok (some t2) => matchLoop (scanChunk p).2.2 t2
          else .ok false
        | .ok none =>
          if (scanChunk p).1 then
            match starLoop (scanChunk p).2.1 (scanChunk p).2.2 n with
            | .error e => .error e
            | .ok none => .ok false
            | .ok (some t2) => matchLoop (scanChunk p).2.2 t2
          else .ok false) := by
  rw [matchLoop]
  rw [dif_neg hp]

theorem wellFormedPattern_unfold (p : List Char) (hp : p ≠ []) :
    wellFormedPattern p =
      (if (scanChunk p).1 ∧ (scanChunk p).2.1 = [] then true
      else chunkSyntaxOk (scanChunk p).2.1 && wellFormedPattern (scanChunk p).2.2) := by
  rw [wellFormedPattern]
  rw [dif_neg hp]

theorem starLoop_ok_some_chunkOk (chunk rest : List Char) :
    ∀ name t, starLoop chunk rest name = .ok (some t) → chunkSyntaxOk chunk = true := by
  intro name
  induction name with
  | nil => intro t h; simp [starLoop] at h
  | cons c nameTail ih =>
    intro t h
    rw [starLoop] at h
    by_cases hc : c = '/'
    · rw [if_pos hc] at h; simp at h
    · rw [if_neg hc] at h
      cases hM : matchChunk chunk nameTail with
      | error e => rw [hM] at h; exact Except.noConfusion h
      | ok r =>
        rw [hM] at h
        cases r with
        | none => exact ih t h
        | some t1 =>
          dsimp only at h
          by_cases hr : rest = [] ∧ t1 ≠ []
          · rw [if_pos hr] at h
            exact ih t h
          · exact matchChunk_ok_some_chunkOk nameTail chunk t1 hM

theorem matchLoop_ok_true_wellFormed (k : Nat) :
    ∀ p n, p.length < k → matchLoop p n = .ok true → wellFormedPattern p = true := by
  induction k with
  | zero => intro p n h _; exact absurd h (by omega)
  | succ k ih =>
    intro p n hlen h
    by_cases hp : p = []
    · subst hp; simp [wellFormedPattern]
    · rw [matchLoop_eq p n hp] at h
      rw [wellFormedPattern_unfold p hp]
      by_cases hsc : (scanChunk p).1 = true ∧ (scanChunk p).2.1 = []
      · rw [if_pos hsc]
      · rw [if_neg hsc] at h ⊢
        have hrest : (scanChunk p).2.2.length < k := by
          have := scanChunk_rest_lt p hp
          omega
        cases hM : matchChunk (scanChunk p).2.1 n with
        | error e => rw [hM] at h; exact Except.noConfusion h
        | ok r =>
          rw [hM] at h
          cases r with
          | some t =>
            dsimp only at h
            by_cases ht : t = [] ∨ (scanChunk p).2.2 ≠ []
            · rw [if_pos ht] at h
              have hwfr := ih (scanChunk p).2.2 t hrest h
              have hok := matchChunk_ok_some_chunkOk n (scanChunk p).2.1 t hM
              rw [hok, hwfr]
              rfl
            · rw [if_neg ht] at h
              by_cases hstar : (scanChunk p).1 = true
              · rw [if_pos hstar] at h
                cases hS : starLoop (scanChunk p).2.1 (scanChunk p).2.2 n with
                | error e => rw [hS] at h; exact Except.noConfusion h
                | ok r2 =>
                  rw [hS] at h
                  cases r2 with
                  | none => dsimp only at h; exact absurd h (by simp)
                  | some t2 =>
                    dsimp only at h
                    have hwfr := ih (scanChunk p).2.2 t2 hrest h
                    have hok := matchChunk_ok_some_chunkOk n (scanChunk p).2.1 t hM
                    rw [hok, hwfr]
                    rfl
              · rw [if_neg hstar] at h
                exact absurd h (by simp)
          | none =>
            dsimp only at h
            by_cases hstar : (scanChunk p).1 = true
            · rw [if_pos hstar] at h
              cases hS : starLoop (scanChunk p).2.1 (scanChunk p).2.2 n with
              | error e => rw [hS] at h; exact Except.noConfusion h
              | ok r2 =>
                rw [hS] at h
                cases r2 with
                | none => dsimp only at h; exact absurd h (by simp)
                | some t2 =>
                  dsimp only at h
                  have hwfr := ih (scanChunk p).2.2 t2 hrest h
                  have hok := starLoop_ok_some_chunkOk (scanChunk p).2.1 (scanChunk p).2.2
                    n t2 hS
                  rw [hok, hwfr]
                  rfl
            · rw [if_neg hstar] at h
              exact absurd h (by simp)

/-- A pattern that successfully glob-matches some name is syntactically
well formed. -/
theorem goMatch_ok_true_wellFormed (p n : Str) (h : goMatch p n = .ok true) :
    wellFormedPattern p = true :=
  matchLoop_ok_true_wellFormed (p.length + 1) p n (by omega) h

theorem globNames_nil (p : Str) : globNames p [] = .ok [] := rfl

theorem globNames_cons (p n : Str) (rest : List Str) :
    globNames p (n :: rest) =
      (match goMatch p n with
      | .error _ => .error (.badPattern p)
      | .ok true =>
        match globNames p rest with
        | .error e => .error e
        | .ok ns => .ok (n :: ns)
      | .ok false => globNames p rest) := rfl

theorem globNames_ok_filter (p : Str) :
    ∀ (l ns : List Str), globNames p l = .ok ns →
      ns = l.filter (fun n => decide (goMatch p n = .ok true)) := by
  intro l
  induction l with
  | nil =>
    intro ns h
    rw [globNames_nil] at h
    injection h with h
    rw [← h]
    rfl
  | cons n rest ih =>
    intro ns h
    rw [globNames_cons] at h
    cases hm : goMatch p n with
    | error e => rw [hm] at h; exact Except.noConfusion h
    | ok b =>
      rw [hm] at h
      cases b with
      | true =>
        dsimp only at h
        cases hg : globNames p rest with
        | error e => rw [hg] at h; exact Except.noConfusion h
        | ok ns2 =>
          rw [hg] at h
          dsimp only at h
          injection h with h
          subst h
          rw [List.filter_cons, if_pos (by simp [hm])]
          rw [ih ns2 hg]
      | false =>
        dsimp only at h
        rw [List.filter_cons, if_neg (by simp [hm])]
        exact ih ns h

theorem globNames_error_badPattern (p : Str) :
    ∀ (l : List Str) (e : Err), globNames p l = .error e → e = .badPattern p := by
  intro l
  induction l with
  | nil =>
    intro e h
    rw [globNames_nil] at h
    exact Except.noConfusion h
  | cons n rest ih =>
    intro e h
    rw [globNames_cons] at h
    cases hm : goMatch p n with
    | error u =>
      rw [hm] at h
      dsimp only at h
      injection h with h
      exact h.symm
    | ok b =>
      rw [hm] at h
      cases b with
      | true =>
        dsimp only at h
        cases hg : globNames p rest with
        | error e2 =>
          rw [hg] at h
          dsimp only at h
          injection h with h
          rw [← h]
          exact ih e2 hg
        | ok ns2 => rw [hg] at h; exact Except.noConfusion h
      | false =>
        dsimp only at h
        exact ih e h

/-- C5: override pattern expansion.  (1) A pattern that is exactly a known
target name expands to the singleton list of that name.  (2) Otherwise a
successful expansion is nonempty and consists of exactly the known target
names the pattern glob-matches, in table order.  (3) If no known name
matches, expansion fails with an error naming the pattern (no-match, or
bad-pattern when the matcher flags the pattern first).  (4) A malformed
glob pattern (one that is not an exact name) likewise fails with an error
naming the pattern. -/
theorem expandTargets_exact_glob_and_errors :
    (∀ (c : Config) (p : Str), (lookupA c.Target p).isSome = true →
      expandTargets c p = .ok [p]) ∧
    (∀ (c : Config) (p : Str) (ns : List Str), lookupA c.Target p = none →
      expandTargets c p = .ok ns →
      ns ≠ [] ∧ ns = (c.Target.map Prod.fst).filter
        (fun n => decide (goMatch p n = .ok true))) ∧
    (∀ (c : Config) (p : Str), lookupA c.Target p = none →
      (∀ n ∈ c.Target.map Prod.fst, ¬ goMatch p n = .ok true) →
      expandTargets c p = .error (.noMatch p) ∨
        expandTargets c p = .error (.badPattern p)) ∧
    (∀ (c : Config) (p : Str), lookupA c.Target p = none →
      wellFormedPattern p = false →
      expandTargets c p = .error (.noMatch p) ∨
        expandTargets c p = .error (.badPattern p)) := by
  have part1 : ∀ (c : Config) (p : Str), (lookupA c.Target p).isSome = true →
      expandTargets c p = .ok [p] := by
    intro c p h
    rw [expandTargets, if_pos h]
  have part2 : ∀ (c : Config) (p : Str) (ns : List Str), lookupA c.Target p = none →
      expandTargets c p = .ok ns →
      ns ≠ [] ∧ ns = (c.Target.map Prod.fst).filter
        (fun n => decide (goMatch p n = .ok true)) := by
    intro c p ns hl h
    rw [expandTargets, if_neg (by simp [hl])] at h
    cases hg : globNames p (c.Target.map Prod.fst) with
    | error e => rw [hg] at h; exact Except.noConfusion h
    | ok ns2 =>
      rw [hg] at h
      cases ns2 with
      | nil => dsimp only at h; exact Except.noConfusion h
      | cons m ms =>
        dsimp only at h
        injection h with h
        subst h
        exact ⟨by simp, globNames_ok_filter p _ _ hg⟩
  have part3 : ∀ (c : Config) (p : Str), lookupA c.Target p = none →
      (∀ n ∈ c.Target.map Prod.fst, ¬ goMatch p n = .ok true) →
      expandTargets c p = .error (.noMatch p) ∨
        expandTargets c p = .error (.badPattern p) := by
    intro c p hl hfail
    rw [expandTargets, if_neg (by simp [hl])]
    cases hg : globNames p (c.Target.map Prod.fst) with
    | error e =>
      right
      dsimp only
      rw [globNames_error_badPattern p _ e hg]
    | ok ns2 =>
      have hnil : ns2 = [] := by
        rw [globNames_ok_filter p _ _ hg]
        exact List.filter_eq_nil_iff.mpr (fun a ha => by simpa using hfail a ha)
      subst hnil
      left
      rfl
  have part4 : ∀ (c : Config) (p : Str), lookupA c.Target p = none →
      wellFormedPattern p = false →
      expandTargets c p = .error (.noMatch p) ∨
        expandTargets c p = .error (.badPattern p) := by
    intro c p hl hwf
    refine part3 c p hl ?_
    intro n hn hgm
    have hw := goMatch_ok_true_wellFormed p n hgm
    rw [hwf] at hw
    exact Bool.noConfusion hw
  exact ⟨part1, part2, part3, part4⟩

/-- A three-target configuration (`webapp`, `webDEP`, `other`) for the C5
witness. -/
def cfgGlob : Config :=
  { Target := [("webapp".toList, webappTarget), ("webDEP".toList, webDEPTarget),
               ("other".toList, emptyTarget)] }

theorem cfgGlob_web_star :
    expandTargets cfgGlob ("web*".toList) =
      .ok [("webapp".toList), ("webDEP".toList)] := by
  simp [expandTargets, cfgGlob, lookupA, globNames, goMatch, matchLoop, scanChunk,
    dropStars, scanBody, matchChunk, starLoop, parseRanges, getEsc, webappTarget,
    webDEPTarget, emptyTarget]

/-- Witness for C5 at the spec's own example: `webapp` expands exactly to
itself; `web*` expands to `{webapp, webDEP}`, which is exactly the set of
matching names; `nomatch*` errors naming the pattern; the malformed
pattern `[` errors naming the pattern. -/
theorem expandTargets_exact_glob_and_errors_witness :
    expandTargets cfgGlob ("webapp".toList) = .ok [("webapp".toList)] ∧
    expandTargets cfgGlob ("web*".toList) =
      .ok [("webapp".toList), ("webDEP".toList)] ∧
    [("webapp".toList), ("webDEP".toList)] =
      (cfgGlob.Target.map Prod.fst).filter
        (fun n => decide (goMatch ("web*".toList) n = .ok true)) ∧
    (expandTargets cfgGlob ("nomatch*".toList) =
        .error (.noMatch ("nomatch*".toList)) ∨
      expandTargets cfgGlob ("nomatch*".toList) =
        .error (.badPattern ("nomatch*".toList))) ∧
    (expandTargets cfgGlob ("[".toList) = .error (.noMatch ("[".toList)) ∨
      expandTargets cfgGlob ("[".toList) = .error (.badPattern ("[".toList))) := by
  refine ⟨?_, cfgGlob_web_star, ?_, ?_, ?_⟩
  · exact expandTargets_exact_glob_and_errors.1 cfgGlob ("webapp".toList) (by decide)
  · exact (expandTargets_exact_glob_and_errors.2.1 cfgGlob ("web*".toList)
      [("webapp".toList), ("webDEP".toList)] (by decide) cfgGlob_web_star).2
  · refine expandTargets_exact_glob_and_errors.2.2.1 cfgGlob ("nomatch*".toList)
      (by decide) ?_
    intro n hn
    simp only [cfgGlob, List.map, List.mem_cons, List.not_mem_nil, or_false] at hn
    rcases hn with rfl | rfl | rfl <;>
      simp [goMatch, matchLoop, scanChunk, dropStars, scanBody, matchChunk,
        starLoop, parseRanges, getEsc]
  · refine expandTargets_exact_glob_and_errors.2.2.2 cfgGlob ("[".toList)
      (by decide) ?_
    simp [wellFormedPattern, chunkSyntaxOk, chunkSyntaxOkF, rangesSyntax, getEsc,
      scanChunk, dropStars, scanBody]

/-! ## C9: a heap-explicit model of the slice-valued fields

The pure model above reads Go slices as their value sequences; that is
sound for every claim except the read-only claim C9, which is about object
identity: `merge` copies slice *headers* (so a resolved target's list
fields alias the config's backing arrays) and `removeDupes` compacts its
argument *in place* before reslicing.  Here the `[]string` fields are
remodelled as headers into an explicit store of arrays.  Every slice this
program creates has offset zero and capacity equal to its length (arrays
come from decoding, from `append` reallocation, or from the prefix
reslice `s[:i]`), so a header is an array index plus a length, and
`append` to a non-empty slice always reallocates.  `Args`/`Labels` maps
stay pure: `merge` only ever writes into the accumulator's map, which is
freshly allocated on first write since the accumulator starts as the zero
`Target`; the `*string` fields are only ever replaced, never written
through. -/

/-- A Go slice header: backing-array index and length (offset and spare
capacity are always zero in this program, see above). -/
structure HSlice where
  arr : Nat
  len : Nat
deriving Repr, DecidableEq

/-- The store of string-array backings; addresses are list indices. -/
abbrev HStore := List (List Str)

/-- Read a slice's contents from the store. -/
def hread (st : HStore) (s : HSlice) : List Str := (st.getD s.arr []).take s.len

def hreadO (st : HStore) (s : Option HSlice) : Option (List Str) := s.map (hread st)

/-- Allocate a fresh array holding `xs`. -/
def halloc (st : HStore) (xs : List Str) : HStore × HSlice :=
  (st ++ [xs], ⟨st.length, xs.length⟩)

/-- Go `append(a, b...)` under the nil-guard `b != nil` of `merge`: no
elements means no reallocation (the header, nil or not, is returned
unchanged); otherwise capacity equals length, so a fresh array is
allocated holding both element lists. -/
def hgoAppend (st : HStore) (a b : Option HSlice) : HStore × Option HSlice :=
  match b with
  | none => (st, a)
  | some bs =>
    if hread st bs = [] then (st, a)
    else
      match halloc st ((a.map (hread st)).getD [] ++ hread st bs) with
      | (st2, s2) => (st2, some s2)

/-- `Target` with its seven `[]string` list fields as slice headers. -/
structure HTarget where
  Inherits   : List Str := []
  Context    : Option Str := none
  Dockerfile : Option Str := none
  Args       : List (Str × Str) := []
  Labels     : List (Str × Str) := []
  Tags       : Option HSlice := none
  CacheFrom  : Option HSlice := none
  CacheTo    : Option HSlice := none
  Target     : Option Str := none
  Secrets    : Option HSlice := none
  SSH        : Option HSlice := none
  Platforms  : Option HSlice := none
  Outputs    : Option HSlice := none
  Pull       : Bool := false
  NoCache    : Bool := false
deriving Repr, DecidableEq

def defaultHTarget : HTarget := {}

def emptyHTarget : HTarget := {}

/-- `merge(t1, t2)` over the store: `Tags`/`Platforms`/`CacheTo`/`Outputs`
copy `t2`'s slice header (aliasing its array); `Secrets`/`SSH`/`CacheFrom`
append (allocating when non-empty); the remaining fields are as in the
pure `merge`. -/
def hmerge (st : HStore) (t1 t2 : HTarget) : HStore × HTarget :=
  match hgoAppend st t1.Secrets t2.Secrets with
  | (st1, sec) =>
    match hgoAppend st1 t1.SSH t2.SSH with
    | (st2, ssh) =>
      match hgoAppend st2 t1.CacheFrom t2.CacheFrom with
      | (st3, cf) =>
        (st3,
          { Inherits   := t1.Inherits ++ t2.Inherits
            Context    := if t2.Context.isSome then t2.Context else t1.Context
            Dockerfile := if t2.Dockerfile.isSome then t2.Dockerfile else t1.Dockerfile
            Args       := unionA t1.Args t2.Args
            Labels     := unionA t1.Labels t2.Labels
            Tags       := if t2.Tags.isSome then t2.Tags else t1.Tags
            CacheFrom  := cf
            CacheTo    := if t2.CacheTo.isSome then t2.CacheTo else t1.CacheTo
            Target     := if t2.Target.isSome then t2.Target else t1.Target
            Secrets    := sec
            SSH        := ssh
            Platforms  := if t2.Platforms.isSome then t2.Platforms else t1.Platforms
            Outputs    := if t2.Outputs.isSome then t2.Outputs else t1.Outputs
            Pull       := t1.Pull
            NoCache    := t1.NoCache })

/-- The write loop of `removeDupes`, operating on the backing array: the
first argument counts the remaining iterations (`len(s) - j`); `i` is the
write index, `j` the read index.  Reads and writes go through the current
array, exactly as the Go loop's `s[i] = v` does. -/
def removeDupesW : Nat → List Str → List Str → Nat → Nat → List Str × Nat
  | 0, a, _, i, _ => (a, i)
  | k + 1, a, seen, i, j =>
    if a.getD j [] ∈ seen then removeDupesW k a seen i (j + 1)
    else removeDupesW k (a.set i (a.getD j [])) (a.getD j [] :: seen) (i + 1) (j + 1)

/-- `removeDupes(s)` (bake.go lines 457-469) over the store: compact the
kept values into the front of `s`'s own backing array and return the
prefix header `s[:i]`.  A nil slice stays nil. -/
def hRemoveDupes (st : HStore) (s : Option HSlice) : HStore × Option HSlice :=
  match s with
  | none => (st, none)
  | some sl =>
    match removeDupesW sl.len (st.getD sl.arr []) [] 0 0 with
    | (a2, i) => (st.set sl.arr a2, some ⟨sl.arr, i⟩)

/-- `(*Target).normalize()` over the store: deduplicate the seven list
fields in source order, each through its (possibly shared) array. -/
def hnormalize (st : HStore) (t : HTarget) : HStore × HTarget :=
  match hRemoveDupes st t.Tags with
  | (st1, tags) =>
    match hRemoveDupes st1 t.Secrets with
    | (st2, sec) =>
      match hRemoveDupes st2 t.SSH with
      | (st3, ssh) =>
        match hRemoveDupes st3 t.Platforms with
        | (st4, plat) =>
          match hRemoveDupes st4 t.CacheFrom with
          | (st5, cf) =>
            match hRemoveDupes st5 t.CacheTo with
            | (st6, ct) =>
              match hRemoveDupes st6 t.Outputs with
              | (st7, outs) =>
                (st7, { t with
                        Tags := tags
                        Secrets := sec
                        SSH := ssh
                        Platforms := plat
                        CacheFrom := cf
                        CacheTo := ct
                        Outputs := outs })

/-- A config over the store (groups are not consulted by target
resolution, so only the target table matters here). -/
structure HConfig where
  Target : List (Str × HTarget) := []
deriving Repr, DecidableEq

/-- The inherits-folding loop of `target`, over the store. -/
def hfoldInh (rec : Str → List Str → HStore →
    Except Err (Option HTarget × List Str × HStore)) :
    List Str → HTarget → List Str → HStore →
      Except Err (HTarget × List Str × HStore)
  | [], tt, vis, st => .ok (tt, vis, st)
  | n :: ns, tt, vis, st =>
    match rec n vis st with
    | .error e => .error e
    | .ok (none, vis2, st2) => hfoldInh rec ns tt vis2 st2
    | .ok (some tr, vis2, st2) =>
      match hmerge st2 tt tr with
      | (st3, tm) => hfoldInh rec ns tm vis2 st3

/-- `(c Config) target(name, visited, overrides)` over the store. -/
def htargetF (c : HConfig) (o : List (Str × HTarget)) :
    Nat → Str → List Str → HStore → Except Err (Option HTarget × List Str × HStore)
  | 0, _, _, _ => .error .outOfFuel
  | fuel + 1, name, visited, st =>
    if name ∈ visited then .ok (none, visited, st)
    else
      match lookupA c.Target name with
      | none => .error (.targetNotFound name)
      | some t =>
        match hfoldInh (htargetF c o fuel) t.Inherits emptyHTarget
            (name :: visited) st with
        | .error e => .error e
        | .ok (tt, visited2, st2) =>
          match hmerge st2 defaultHTarget tt with
          | (st3, m1) =>
            match hmerge st3 m1 { t with Inherits := [] } with
            | (st4, m2) =>
              match hmerge st4 m2 ((lookupA o name).getD emptyHTarget) with
              | (st5, m3) =>
                match hnormalize st5 m3 with
                | (st6, tn) => .ok (some tn, visited2, st6)

def hfuelBound (c : HConfig) : Nat := c.Target.length + 1

/-- The final fallback defaults (pointer fields only; no slices). -/
def hfillDefaults (t : HTarget) : HTarget :=
  if t.Context = none then
    if t.Dockerfile = none then
      { t with Context := some (".".toList), Dockerfile := some ("Dockerfile".toList) }
    else { t with Context := some (".".toList) }
  else
    if t.Dockerfile = none then { t with Dockerfile := some ("Dockerfile".toList) }
    else t

/-- `(c Config) ResolveTarget(name, overrides)` over the store. -/
def hResolveTarget (c : HConfig) (name : Str) (o : List (Str × HTarget))
    (st : HStore) : Except Err (Option HTarget × HStore) :=
  match htargetF c o (hfuelBound c) name [] st with
  | .error e => .error e
  | .ok (none, _, st2) => .ok (none, st2)
  | .ok (some t, _, st2) => .ok (some (hfillDefaults t), st2)

/-- The arrays present at the start are still intact: the store may have
grown, but every original address reads its original contents. -/
def storePres (st0 st : HStore) : Prop :=
  st0.length ≤ st.length ∧ ∀ k, k < st0.length → st.getD k [] = st0.getD k []

/-- A slice fit for resolution against the original store `st0`: if it
points into `st0` it covers a whole array whose contents are
duplicate-free (fresh arrays allocated during resolution are
unconstrained). -/
def goodSlice (st0 : HStore) : Option HSlice → Prop
  | none => True
  | some sl =>
    sl.arr < st0.length →
      sl.len = (st0.getD sl.arr []).length ∧ (st0.getD sl.arr []).Nodup

instance (st0 : HStore) (s : Option HSlice) : Decidable (goodSlice st0 s) :=
  match s with
  | none => isTrue trivial
  | some sl =>
    inferInstanceAs (Decidable (sl.arr < st0.length →
      sl.len = (st0.getD sl.arr []).length ∧ (st0.getD sl.arr []).Nodup))

/-- All seven slice fields of a target are `goodSlice`. -/
def goodTarget (st0 : HStore) (t : HTarget) : Prop :=
  goodSlice st0 t.Tags ∧ goodSlice st0 t.CacheFrom ∧ goodSlice st0 t.CacheTo ∧
  goodSlice st0 t.Secrets ∧ goodSlice st0 t.SSH ∧ goodSlice st0 t.Platforms ∧
  goodSlice st0 t.Outputs

instance (st0 : HStore) (t : HTarget) : Decidable (goodTarget st0 t) :=
  inferInstanceAs (Decidable (goodSlice st0 t.Tags ∧ goodSlice st0 t.CacheFrom ∧
    goodSlice st0 t.CacheTo ∧ goodSlice st0 t.Secrets ∧ goodSlice st0 t.SSH ∧
    goodSlice st0 t.Platforms ∧ goodSlice st0 t.Outputs))

/-- Every target of a table is `goodTarget`. -/
def goodTable (st0 : HStore) (l : List (Str × HTarget)) : Prop :=
  ∀ kt ∈ l, goodTarget st0 kt.2

instance (st0 : HStore) (l : List (Str × HTarget)) : Decidable (goodTable st0 l) :=
  inferInstanceAs (Decidable (∀ kt ∈ l, goodTarget st0 kt.2))

theorem list_set_getD_self {α : Type} :
    ∀ (l : List α) (k : Nat) (d : α), l.set k (l.getD k d) = l := by
  intro l
  induction l with
  | nil => intro k d; rfl
  | cons x xs ih =>
    intro k d
    cases k with
    | zero => rfl
    | succ k =>
      show x :: xs.set k (xs.getD k d) = x :: xs
      rw [ih]

theorem list_getD_set_ne {α : Type} :
    ∀ (l : List α) (i k : Nat) (x d : α), i ≠ k →
      (l.set i x).getD k d = l.getD k d := by
  intro l
  induction l with
  | nil => intro i k x d _; rfl
  | cons y ys ih =>
    intro i k x d hne
    cases i with
    | zero =>
      cases k with
      | zero => exact absurd rfl hne
      | succ k => rfl
    | succ i =>
      cases k with
      | zero => rfl
      | succ k =>
        show (ys.set i x).getD k d = ys.getD k d
        exact ih i k x d (fun h => hne (by rw [h]))

theorem list_getD_append {α : Type} :
    ∀ (l l2 : List α) (k : Nat) (d : α), k < l.length →
      (l ++ l2).getD k d = l.getD k d := by
  intro l
  induction l with
  | nil => intro l2 k d h; exact absurd h (by simp)
  | cons y ys ih =>
    intro l2 k d h
    cases k with
    | zero => rfl
    | succ k =>
      show (ys ++ l2).getD k d = ys.getD k d
      exact ih l2 k d (by simpa using h)

theorem storePres_refl (st : HStore) : storePres st st :=
  ⟨Nat.le_refl _, fun _ _ => rfl⟩

theorem storePres_trans (st0 st1 st2 : HStore)
    (h1 : storePres st0 st1) (h2 : storePres st1 st2) : storePres st0 st2 :=
  ⟨Nat.le_trans h1.1 h2.1,
   fun k hk => by rw [h2.2 k (Nat.lt_of_lt_of_le hk h1.1), h1.2 k hk]⟩

theorem storePres_append (st : HStore) (ext : HStore) : storePres st (st ++ ext) :=
  ⟨by simp, fun k hk => list_getD_append st ext k [] hk⟩

theorem storePres_set_ge (st0 st : HStore) (i : Nat) (x : List Str)
    (hp : storePres st0 st) (hi : st0.length ≤ i) : storePres st0 (st.set i x) :=
  ⟨by rw [List.length_set]; exact hp.1,
   fun k hk => by
     rw [list_getD_set_ne st i k x [] (by omega)]
     exact hp.2 k hk⟩

theorem hgoAppend_storePres (st : HStore) (a b : Option HSlice) :
    storePres st (hgoAppend st a b).1 := by
  unfold hgoAppend
  split
  · exact storePres_refl st
  · split
    · exact storePres_refl st
    · dsimp only [halloc]
      exact storePres_append st _

theorem hgoAppend_good (st0 st : HStore) (a b : Option HSlice)
    (hp : storePres st0 st) (ha : goodSlice st0 a) :
    goodSlice st0 (hgoAppend st a b).2 := by
  unfold hgoAppend
  split
  · exact ha
  · split
    · exact ha
    · dsimp only [halloc]
      intro hlt
      dsimp only at hlt
      exact absurd hlt (Nat.not_lt.mpr hp.1)

theorem hmerge_storePres (st : HStore) (t1 t2 : HTarget) :
    storePres st (hmerge st t1 t2).1 := by
  unfold hmerge
  have p1 := hgoAppend_storePres st t1.Secrets t2.Secrets
  generalize h1 : hgoAppend st t1.Secrets t2.Secrets = r1
  rw [h1] at p1
  obtain ⟨st1, sec⟩ := r1
  dsimp only
  dsimp only at p1
  have p2 := hgoAppend_storePres st1 t1.SSH t2.SSH
  generalize h2 : hgoAppend st1 t1.SSH t2.SSH = r2
  rw [h2] at p2
  obtain ⟨st2, ssh⟩ := r2
  dsimp only
  dsimp only at p2
  have p3 := hgoAppend_storePres st2 t1.CacheFrom t2.CacheFrom
  generalize h3 : hgoAppend st2 t1.CacheFrom t2.CacheFrom = r3
  rw [h3] at p3
  obtain ⟨st3, cf⟩ := r3
  dsimp only
  dsimp only at p3
  exact storePres_trans _ _ _ (storePres_trans _ _ _ p1 p2) p3

theorem hmerge_good (st0 st : HStore) (t1 t2 : HTarget)
    (hp : storePres st0 st) (h1 : goodTarget st0 t1) (h2 : goodTarget st0 t2) :
    goodTarget st0 (hmerge st t1 t2).2 := by
  obtain ⟨g1T, g1CF, g1CT, g1S, g1SSH, g1P, g1O⟩ := h1
  obtain ⟨g2T, g2CF, g2CT, g2S, g2SSH, g2P, g2O⟩ := h2
  unfold hmerge
  have p1 := hgoAppend_storePres st t1.Secrets t2.Secrets
  have gS := hgoAppend_good st0 st t1.Secrets t2.Secrets hp g1S
  generalize hA1 : hgoAppend st t1.Secrets t2.Secrets = r1
  rw [hA1] at p1 gS
  obtain ⟨st1, sec⟩ := r1
  dsimp only
  dsimp only at p1 gS
  have p2 := hgoAppend_storePres st1 t1.SSH t2.SSH
  have gSSH := hgoAppend_good st0 st1 t1.SSH t2.SSH
    (storePres_trans _ _ _ hp p1) g1SSH
  generalize hA2 : hgoAppend st1 t1.SSH t2.SSH = r2
  rw [hA2] at p2 gSSH
  obtain ⟨st2, ssh⟩ := r2
  dsimp only
  dsimp only at p2 gSSH
  have gCF := hgoAppend_good st0 st2 t1.CacheFrom t2.CacheFrom
    (storePres_trans _ _ _ (storePres_trans _ _ _ hp p1) p2) g1CF
  generalize hA3 : hgoAppend st2 t1.CacheFrom t2.CacheFrom = r3
  rw [hA3] at gCF
  obtain ⟨st3, cf⟩ := r3
  dsimp only
  dsimp only at gCF
  refine ⟨?_, gCF, ?_, gS, gSSH, ?_, ?_⟩ <;> dsimp only <;> split
  · exact g2T
  · exact g1T
  · exact g2CT
  · exact g1CT
  · exact g2P
  · exact g1P
  · exact g2O
  · exact g1O

theorem removeDupesW_nodup (a : List Str) (hnd : a.Nodup) :
    ∀ (k j : Nat) (seen : List Str), k + j = a.length →
      (∀ x ∈ seen, x ∉ a.drop j) →
      removeDupesW k a seen j j = (a, a.length) := by
  intro k
  induction k with
  | zero =>
    intro j seen hkj _
    have hj : j = a.length := by omega
    subst hj
    rfl
  | succ k ih =>
    intro j seen hkj hdisj
    have hj : j < a.length := by omega
    have hgetD : a.getD j [] = a.get ⟨j, hj⟩ := by
      simp [List.getD_eq_getElem?_getD, List.getElem?_eq_getElem hj]
    have hdrop : a.drop j = a.get ⟨j, hj⟩ :: a.drop (j + 1) := by
      simpa using List.drop_eq_getElem_cons hj
    have hv : a.getD j [] ∈ a.drop j := by
      rw [hdrop, hgetD]
      exact List.mem_cons_self _ _
    have hnin : a.getD j [] ∉ seen := fun hmem => hdisj _ hmem hv
    show (if a.getD j [] ∈ seen then removeDupesW k a seen j (j + 1)
      else removeDupesW k (a.set j (a.getD j [])) (a.getD j [] :: seen)
        (j + 1) (j + 1)) = (a, a.length)
    rw [if_neg hnin, list_set_getD_self a j []]
    refine ih (j + 1) (a.getD j [] :: seen) (by omega) ?_
    intro x hx
    have hndj : (a.drop j).Nodup := (List.drop_sublist j a).nodup hnd
    rw [hdrop] at hndj
    rcases List.mem_cons.mp hx with hxv | hxs
    · subst hxv
      rw [hgetD]
      exact (List.nodup_cons.mp hndj).1
    · intro hmem
      exact hdisj x hxs (by rw [hdrop]; exact List.mem_cons_of_mem _ hmem)

theorem hRemoveDupes_pres (st0 st : HStore) (s : Option HSlice)
    (hp : storePres st0 st) (hs : goodSlice st0 s) :
    storePres st0 (hRemoveDupes st s).1 ∧ goodSlice st0 (hRemoveDupes st s).2 := by
  cases s with
  | none => exact ⟨hp, trivial⟩
  | some sl =>
    by_cases hlt : sl.arr < st0.length
    · obtain ⟨hlen, hnd⟩ := hs hlt
      have hcontents : st.getD sl.arr [] = st0.getD sl.arr [] := hp.2 sl.arr hlt
      have hrw := removeDupesW_nodup (st.getD sl.arr [])
        (by rw [hcontents]; exact hnd) sl.len 0 []
        (by rw [hcontents, hlen]; omega) (by intro x hx; cases hx)
      unfold hRemoveDupes
      dsimp only
      rw [hrw]
      dsimp only
      constructor
      · rw [list_set_getD_self]
        exact hp
      · intro _
        rw [hcontents]
        exact ⟨rfl, hnd⟩
    · unfold hRemoveDupes
      dsimp only
      generalize hW : removeDupesW sl.len (st.getD sl.arr []) [] 0 0 = rW
      obtain ⟨a2, i⟩ := rW
      dsimp only
      constructor
      · exact storePres_set_ge st0 st sl.arr a2 hp (by omega)
      · intro h
        exact absurd h hlt

theorem hnormalize_pres (st0 st : HStore) (t : HTarget)
    (hp : storePres st0 st) (ht : goodTarget st0 t) :
    storePres st0 (hnormalize st t).1 ∧ goodTarget st0 (hnormalize st t).2 := by
  obtain ⟨gT, gCF, gCT, gS, gSSH, gP, gO⟩ := ht
  unfold hnormalize
  have p1 := hRemoveDupes_pres st0 st t.Tags hp gT
  generalize h1 : hRemoveDupes st t.Tags = r1
  rw [h1] at p1
  obtain ⟨st1, tags⟩ := r1
  dsimp only
  dsimp only at p1
  have p2 := hRemoveDupes_pres st0 st1 t.Secrets p1.1 gS
  generalize h2 : hRemoveDupes st1 t.Secrets = r2
  rw [h2] at p2
  obtain ⟨st2, sec⟩ := r2
  dsimp only
  dsimp only at p2
  have p3 := hRemoveDupes_pres st0 st2 t.SSH p2.1 gSSH
  generalize h3 : hRemoveDupes st2 t.SSH = r3
  rw [h3] at p3
  obtain ⟨st3, ssh⟩ := r3
  dsimp only
  dsimp only at p3
  have p4 := hRemoveDupes_pres st0 st3 t.Platforms p3.1 gP
  generalize h4 : hRemoveDupes st3 t.Platforms = r4
  rw [h4] at p4
  obtain ⟨st4, plat⟩ := r4
  dsimp only
  dsimp only at p4
  have p5 := hRemoveDupes_pres st0 st4 t.CacheFrom p4.1 gCF
  generalize h5 : hRemoveDupes st4 t.CacheFrom = r5
  rw [h5] at p5
  obtain ⟨st5, cf⟩ := r5
  dsimp only
  dsimp only at p5
  have p6 := hRemoveDupes_pres st0 st5 t.CacheTo p5.1 gCT
  generalize h6 : hRemoveDupes st5 t.CacheTo = r6
  rw [h6] at p6
  obtain ⟨st6, ct⟩ := r6
  dsimp only
  dsimp only at p6
  have p7 := hRemoveDupes_pres st0 st6 t.Outputs p6.1 gO
  generalize h7 : hRemoveDupes st6 t.Outputs = r7
  rw [h7] at p7
  obtain ⟨st7, outs⟩ := r7
  dsimp only
  dsimp only at p7
  exact ⟨p7.1, p1.2, p5.2, p6.2, p2.2, p3.2, p4.2, p7.2⟩

theorem goodTarget_empty (st0 : HStore) : goodTarget st0 emptyHTarget :=
  ⟨trivial, trivial, trivial, trivial, trivial, trivial, trivial⟩

theorem goodTarget_inherits_cleared (st0 : HStore) (t : HTarget)
    (h : goodTarget st0 t) : goodTarget st0 { t with Inherits := [] } := h

theorem hfoldInh_pres (st0 : HStore)
    (rec : Str → List Str → HStore → Except Err (Option HTarget × List Str × HStore))
    (hrec : ∀ n vis st r vis2 st2, storePres st0 st →
      rec n vis st = .ok (r, vis2, st2) →
      storePres st0 st2 ∧ (∀ tr, r = some tr → goodTarget st0 tr)) :
    ∀ (ns : List Str) (tt : HTarget) (vis : List Str) (st : HStore)
      (tt2 : HTarget) (vis2 : List Str) (st2 : HStore),
      storePres st0 st → goodTarget st0 tt →
      hfoldInh rec ns tt vis st = .ok (tt2, vis2, st2) →
      storePres st0 st2 ∧ goodTarget st0 tt2 := by
  intro ns
  induction ns with
  | nil =>
    intro tt vis st tt2 vis2 st2 hp htt h
    injection h with h
    injection h with h1 h2
    injection h2 with h2 h3
    subst h1 h3
    exact ⟨hp, htt⟩
  | cons n ns ih =>
    intro tt vis st tt2 vis2 st2 hp htt h
    rw [hfoldInh] at h
    cases hr : rec n vis st with
    | error e => rw [hr] at h; exact Except.noConfusion h
    | ok tri =>
      rw [hr] at h
      obtain ⟨r, visr, str⟩ := tri
      obtain ⟨pr, gr⟩ := hrec n vis st r visr str hp hr
      cases r with
      | none => exact ih tt visr str tt2 vis2 st2 pr htt h
      | some tr =>
        dsimp only at h
        have gtr := gr tr rfl
        have pm := hmerge_storePres str tt tr
        have gm := hmerge_good st0 str tt tr pr htt gtr
        generalize hM : hmerge str tt tr = rM at h pm gm
        obtain ⟨st3, tm⟩ := rM
        dsimp only at h pm gm
        exact ih tm visr st3 tt2 vis2 st2 (storePres_trans _ _ _ pr pm) gm h

theorem htargetF_pres (st0 : HStore) (c : HConfig) (o : List (Str × HTarget))
    (hc : goodTable st0 c.Target) (ho : goodTable st0 o) :
    ∀ (fuel : Nat) (name : Str) (vis : List Str) (st : HStore)
      (r : Option HTarget) (vis2 : List Str) (st2 : HStore),
      storePres st0 st →
      htargetF c o fuel name vis st = .ok (r, vis2, st2) →
      storePres st0 st2 ∧ (∀ tr, r = some tr → goodTarget st0 tr) := by
  intro fuel
  induction fuel with
  | zero =>
    intro name vis st r vis2 st2 _ h
    exact Except.noConfusion h
  | succ fuel ih =>
    intro name vis st r vis2 st2 hp h
    rw [htargetF] at h
    by_cases hv : name ∈ vis
    · rw [if_pos hv] at h
      injection h with h
      injection h with h1 h2
      injection h2 with h2 h3
      subst h1 h3
      exact ⟨hp, fun tr htr => Option.noConfusion htr⟩
    · rw [if_neg hv] at h
      cases hl : lookupA c.Target name with
      | none => rw [hl] at h; exact Except.noConfusion h
      | some t =>
        rw [hl] at h
        dsimp only at h
        have gt : goodTarget st0 t := by
          obtain ⟨k', hk⟩ := lookupA_mem c.Target name t hl
          exact hc (k', t) hk
        cases hf : hfoldInh (htargetF c o fuel) t.Inherits emptyHTarget
            (name :: vis) st with
        | error e => rw [hf] at h; exact Except.noConfusion h
        | ok tri =>
          rw [hf] at h
          obtain ⟨tt, vis3, st3⟩ := tri
          dsimp only at h
          have hrec : ∀ n vis st r vis2 st2, storePres st0 st →
              htargetF c o fuel n vis st = .ok (r, vis2, st2) →
              storePres st0 st2 ∧ (∀ tr, r = some tr → goodTarget st0 tr) :=
            fun n vis st r vis2 st2 hps hh => ih n vis st r vis2 st2 hps hh
          obtain ⟨p3, g3⟩ := hfoldInh_pres st0 (htargetF c o fuel) hrec
            t.Inherits emptyHTarget (name :: vis) st tt vis3 st3 hp
            (goodTarget_empty st0) hf
          have pm1 := hmerge_storePres st3 defaultHTarget tt
          have gm1 := hmerge_good st0 st3 defaultHTarget tt p3
            (goodTarget_empty st0) g3
          generalize hM1 : hmerge st3 defaultHTarget tt = rM1 at h pm1 gm1
          obtain ⟨st4, m1⟩ := rM1
          dsimp only at h pm1 gm1
          have p4 := storePres_trans _ _ _ p3 pm1
          have pm2 := hmerge_storePres st4 m1 { t with Inherits := [] }
          have gm2 := hmerge_good st0 st4 m1 { t with Inherits := [] } p4 gm1
            (goodTarget_inherits_cleared st0 t gt)
          generalize hM2 : hmerge st4 m1 { t with Inherits := [] } = rM2 at h pm2 gm2
          obtain ⟨st5, m2⟩ := rM2
          dsimp only at h pm2 gm2
          have p5 := storePres_trans _ _ _ p4 pm2
          have gov : goodTarget st0 ((lookupA o name).getD emptyHTarget) := by
            cases hlo : lookupA o name with
            | none => exact goodTarget_empty st0
            | some ov =>
              obtain ⟨k', hk⟩ := lookupA_mem o name ov hlo
              exact ho (k', ov) hk
          have pm3 := hmerge_storePres st5 m2 ((lookupA o name).getD emptyHTarget)
          have gm3 := hmerge_good st0 st5 m2 ((lookupA o name).getD emptyHTarget)
            p5 gm2 gov
          generalize hM3 : hmerge st5 m2 ((lookupA o name).getD emptyHTarget) = rM3
            at h pm3 gm3
          obtain ⟨st6, m3⟩ := rM3
          dsimp only at h pm3 gm3
          have p6 := storePres_trans _ _ _ p5 pm3
          have pn := hnormalize_pres st0 st6 m3 p6 gm3
          generalize hN : hnormalize st6 m3 = rN at h pn
          obtain ⟨st7, tn⟩ := rN
          dsimp only at h pn
          injection h with h
          injection h with h1 h2
          injection h2 with h2 h3
          subst h1 h3
          refine ⟨pn.1, fun tr htr => ?_⟩
          injection htr with htr
          subst htr
          exact pn.2

/-- C9 (amended): target resolution leaves every array of the original
store intact provided every slice stored in the config's target table and
in the override table covers a whole, duplicate-free array; without that
proviso `normalize` compacts aliased config arrays in place (see the
counterexample `config_array_mutated_by_resolution`). -/
theorem resolution_preserves_store_of_nodup (st0 : HStore) (c : HConfig)
    (o : List (Str × HTarget)) (name : Str) (r : Option HTarget) (st2 : HStore)
    (hc : goodTable st0 c.Target) (ho : goodTable st0 o)
    (h : hResolveTarget c name o st0 = .ok (r, st2)) :
    storePres st0 st2 := by
  rw [hResolveTarget] at h
  cases ht : htargetF c o (hfuelBound c) name [] st0 with
  | error e => rw [ht] at h; exact Except.noConfusion h
  | ok tri =>
    rw [ht] at h
    obtain ⟨ro, vis2, st3⟩ := tri
    have := htargetF_pres st0 c o hc ho (hfuelBound c) name [] st0 ro vis2 st3
      (storePres_refl st0) ht
    cases ro with
    | none =>
      dsimp only at h
      injection h with h
      injection h with h1 h2
      subst h2
      exact this.1
    | some t =>
      dsimp only at h
      injection h with h
      injection h with h1 h2
      subst h2
      exact this.1

/-- A store holding one array with a duplicate (`["x", "x", "y"]`), and a
config whose target `a` declares that array as its tags. -/
def stDup : HStore := [["x".toList, "x".toList, "y".toList]]

def cfgDupH : HConfig := ⟨[("a".toList, { Tags := some ⟨0, 3⟩ })]⟩

/-- Counterexample to C9 as stated: resolving `a` succeeds but rewrites
the config's stored tags array in place — `removeDupes` compacts the
resolved target's (aliased) array, so the store afterwards reads
`["x", "y", "y"]` where the config declared `["x", "x", "y"]`; a later
read of the stored target record sees different contents. -/
theorem config_array_mutated_by_resolution :
    (hResolveTarget cfgDupH ("a".toList) [] stDup).map Prod.snd =
      .ok [["x".toList, "y".toList, "y".toList]] ∧
    hread stDup ⟨0, 3⟩ = ["x".toList, "x".toList, "y".toList] ∧
    hread [["x".toList, "y".toList, "y".toList]] ⟨0, 3⟩ =
      ["x".toList, "y".toList, "y".toList] ∧
    ([["x".toList, "y".toList, "y".toList]] : HStore) ≠ stDup := by
  refine ⟨by decide, by decide, by decide, by decide⟩

/-- A duplicate-free variant of the same configuration. -/
def stW : HStore := [["x".toList, "y".toList]]

def cfgWH : HConfig := ⟨[("a".toList, { Tags := some ⟨0, 2⟩ })]⟩

/-- The target produced by resolving `a` against `cfgWH`. -/
def tResW : HTarget :=
  { Context := some (".".toList), Dockerfile := some ("Dockerfile".toList),
    Tags := some ⟨0, 2⟩ }

/-- Witness for the amended C9: with a duplicate-free stored array the
hypotheses hold, resolution succeeds, and the store is preserved. -/
theorem resolution_preserves_store_of_nodup_witness :
    goodTable stW cfgWH.Target ∧ goodTable stW [] ∧
    hResolveTarget cfgWH ("a".toList) [] stW = .ok (some tResW, stW) ∧
    storePres stW stW :=
  ⟨by decide, by decide, by decide,
   resolution_preserves_store_of_nodup stW cfgWH [] ("a".toList) (some tResW) stW
     (by decide) (by decide) (by decide)⟩

end Bake
